import Mathlib

/-!
Verification of the meeting-pipeline core of the `aware` VS Code extension.

The repository ships two near-identical variants of `MeetingService`
(both present in `src/meetingService.ts`, separated by document markers):
  * variant A (lines 1-254): `parseMeetings`, per-range caches, `lastError`;
  * variant B (lines 255-756): `parseWorkIQTextResponse` with a numbered-list
    fallback path and connection-state classification.
Both are embedded below (namespaces `MSa` and `MSb`), together with the
notification scheduler (`src/notificationManager.ts`, namespace `NM`) and the
focus-session manager (`src/focusSessionManager.ts`, namespace `FSM`).

Modelling conventions for host (JavaScript) primitives, which have no source
in the repository:
  * instants are `Int` milliseconds since the epoch; a JavaScript number that
    may be `NaN` (an invalid `Date`) is `Option Int` with `none` for `NaN`,
    and comparisons on `none` are `false`, mirroring `NaN` comparisons;
  * `tz : Int` is the host local-time offset in milliseconds
    (local time = UTC + tz); DST transitions are not modelled;
  * `JSON.parse` is a strict JSON parser over a `JValue` type whose numbers
    are exact rationals (the float rounding of enormous literals is ignored);
  * `new Date(string)` is the ECMA-262 date-time string format
    (`YYYY[-MM[-DD[THH:mm[:ss[.sss]][Z|+-HH:mm]]]]`, date-only forms UTC,
    date-time forms without offset local); the implementation-defined
    fallback parsing of non-ISO strings is modelled as an invalid date;
  * `Array.prototype.sort` (stable since ES2019) is a stable insertion sort
    over the comparator's non-positive relation.
-/

set_option maxRecDepth 8000

/-- JavaScript whitespace characters (ASCII subset of the `\s` class, which
also backs `String.prototype.trim`). -/
def isJsWs (c : Char) : Bool :=
  c = ' ' || c = '\t' || c = '\n' || c = '\r' || c = Char.ofNat 11 || c = Char.ofNat 12

/-- JSON (RFC 8259) insignificant whitespace. -/
def isJsonWs (c : Char) : Bool :=
  c = ' ' || c = '\t' || c = '\n' || c = '\r'

/-- Left brace character, `\x7b`. -/
def lbrace : Char := Char.ofNat 123

/-- Right brace character, `\x7d`. -/
def rbrace : Char := Char.ofNat 125

/-- String.prototype.trim, on char lists. -/
def jsTrimL (l : List Char) : List Char :=
  ((l.dropWhile isJsWs).reverse.dropWhile isJsWs).reverse

/-- String.prototype.trim. -/
def jsTrim (s : String) : String := (jsTrimL s.data).asString

/-- String.prototype.includes, used by the error classifier. -/
def jsIncludes (s sub : String) : Bool := go s.data
where
  go : List Char → Bool
    | [] => sub.data.isEmpty
    | l@(_ :: rest) => sub.data.isPrefixOf l || go rest

/-- Decimal digits to a natural number (the exact value of `parseInt` on an
all-digit string; float precision loss on enormous inputs is ignored). -/
def digitsToNat (ds : List Char) : Nat :=
  ds.foldl (fun acc c => acc * 10 + (c.toNat - 48)) 0

/-- Math.round(a / b) for an integer numerator and a positive integer
denominator, computed exactly in integers: ECMA-262 Math.round(x) is
floor(x + 1/2), and floor(a/b + 1/2) = fdiv(2a + b, 2b) for b > 0.  (Both
parsers and the scheduler only ever round quotients of millisecond
differences by positive constants.) -/
def jsRoundDiv (a b : Int) : Int := Int.fdiv (2 * a + b) (2 * b)

/-- A JSON value as produced by `JSON.parse`.  Object fields keep their
source order; duplicate keys are resolved by `jsGetField` taking the last
occurrence, as `JSON.parse` does. -/
inductive JValue where
  | null : JValue
  | bool : Bool → JValue
  | num : Rat → JValue
  | str : String → JValue
  | arr : List JValue → JValue
  | obj : List (String × JValue) → JValue

/-- JavaScript property access `item.key` on a parsed JSON value: `none` is
`undefined` (missing field or non-object receiver); the last duplicate key
wins, matching `JSON.parse`. -/
def jsGetField (v : JValue) (k : String) : Option JValue :=
  match v with
  | .obj kvs => go kvs none
  | _ => none
where
  go : List (String × JValue) → Option JValue → Option JValue
    | [], acc => acc
    | (k2, v2) :: rest, acc => go rest (if k2 = k then some v2 else acc)

/-- JavaScript truthiness of a parsed JSON value. -/
def jsTruthy (v : JValue) : Bool :=
  match v with
  | .null => false
  | .bool b => b
  | .num q => !(q = 0)
  | .str s => !(s = "")
  | .arr _ => true
  | .obj _ => true

/-- Truthiness of a possibly-`undefined` value. -/
def jsTruthyOpt (v : Option JValue) : Bool :=
  match v with
  | some w => jsTruthy w
  | none => false

/-- The JavaScript `||` operator on possibly-`undefined` values: the left
operand if truthy, else the right. -/
def jsOrV (a b : Option JValue) : Option JValue :=
  if jsTruthyOpt a then a else b

/-- Parse the body of a JSON string (after the opening quote), handling the
escape sequences of RFC 8259 and rejecting raw control characters. -/
def parseJStringBody : Nat → List Char → Option (List Char × List Char)
  | _, [] => none
  | _, '"' :: rest => some ([], rest)
  | 0, _ => none
  | fuel + 1, '\\' :: esc => do
    let (c, rest) ← decodeEsc esc
    let (tl, rest2) ← parseJStringBody fuel rest
    some (c :: tl, rest2)
  | fuel + 1, c :: rest =>
    if c.toNat < 32 then none
    else do
      let (tl, rest2) ← parseJStringBody fuel rest
      some (c :: tl, rest2)
where
  hexVal (c : Char) : Option Nat :=
    if c.isDigit then some (c.toNat - 48)
    else if 'a' ≤ c ∧ c ≤ 'f' then some (c.toNat - 87)
    else if 'A' ≤ c ∧ c ≤ 'F' then some (c.toNat - 55)
    else none
  decodeEsc : List Char → Option (Char × List Char)
    | '"' :: r => some ('"', r)
    | '\\' :: r => some ('\\', r)
    | '/' :: r => some ('/', r)
    | 'b' :: r => some (Char.ofNat 8, r)
    | 'f' :: r => some (Char.ofNat 12, r)
    | 'n' :: r => some ('\n', r)
    | 'r' :: r => some ('\r', r)
    | 't' :: r => some ('\t', r)
    | 'u' :: a :: b :: c :: d :: r => do
      let ha ← hexVal a
      let hb ← hexVal b
      let hc ← hexVal c
      let hd ← hexVal d
      some (Char.ofNat (((ha * 16 + hb) * 16 + hc) * 16 + hd), r)
    | _ => none

/-- Parse a JSON number (strict RFC 8259 grammar) into an exact rational. -/
def parseJNumber (l : List Char) : Option (Rat × List Char) := do
  let (sign, l1) := match l with
    | '-' :: r => ((-1 : Int), r)
    | _ => ((1 : Int), l)
  let intDs := l1.takeWhile Char.isDigit
  if intDs.isEmpty then none else
  if intDs.length > 1 ∧ intDs.headD '0' = '0' then none else
  let l2 := l1.drop intDs.length
  let (fracDs, l3) := match l2 with
    | '.' :: r =>
      let ds := r.takeWhile Char.isDigit
      (ds, r.drop ds.length)
    | _ => ([], l2)
  if l2 ≠ l3 ∧ fracDs.isEmpty then none else
  let (expOk, expVal, l4) := match l3 with
    | 'e' :: r => readExp r
    | 'E' :: r => readExp r
    | _ => (true, (0 : Int), l3)
  if !expOk then none else
  let mant : Rat := sign * ((digitsToNat intDs : Int) +
    (digitsToNat fracDs : Rat) / ((10 : Rat) ^ fracDs.length))
  let value := if expVal ≥ 0 then mant * (10 : Rat) ^ expVal.toNat
    else mant / ((10 : Rat) ^ (-expVal).toNat)
  some (value, l4)
where
  readExp (r : List Char) : Bool × Int × List Char :=
    let (es, r1) := match r with
      | '+' :: r2 => ((1 : Int), r2)
      | '-' :: r2 => ((-1 : Int), r2)
      | _ => ((1 : Int), r)
    let ds := r1.takeWhile Char.isDigit
    if ds.isEmpty then (false, 0, r) else (true, es * (digitsToNat ds : Int), r1.drop ds.length)

mutual

/-- Parse one JSON value, fueled to make the recursion structural (the fuel
is the input length plus one, so it never runs out on real input). -/
def parseJValue : Nat → List Char → Option (JValue × List Char)
  | 0, _ => none
  | fuel + 1, l =>
    match l.dropWhile isJsonWs with
    | 'n' :: 'u' :: 'l' :: 'l' :: r => some (.null, r)
    | 't' :: 'r' :: 'u' :: 'e' :: r => some (.bool true, r)
    | 'f' :: 'a' :: 'l' :: 's' :: 'e' :: r => some (.bool false, r)
    | '"' :: r => do
      let (cs, r2) ← parseJStringBody fuel r
      some (.str cs.asString, r2)
    | '[' :: r =>
      (match (r.dropWhile isJsonWs) with
       | ']' :: r2 => some (.arr [], r2)
       | _ => do
         let (xs, r2) ← parseJArrayItems fuel r
         some (.arr xs, r2))
    | c :: r =>
      if c = lbrace then
        match (r.dropWhile isJsonWs) with
        | c2 :: r2 =>
          if c2 = rbrace then some (.obj [], r2)
          else do
            let (kvs, r3) ← parseJObjItems fuel r
            some (.obj kvs, r3)
        | [] => none
      else (parseJNumber (c :: r)).map (fun p => (.num p.1, p.2))
    | [] => none

/-- Parse the comma-separated items of a non-empty JSON array (after `[`). -/
def parseJArrayItems : Nat → List Char → Option (List JValue × List Char)
  | 0, _ => none
  | fuel + 1, l => do
    let (v, r) ← parseJValue fuel l
    match r.dropWhile isJsonWs with
    | ',' :: r2 => do
      let (vs, r3) ← parseJArrayItems fuel r2
      some (v :: vs, r3)
    | ']' :: r2 => some ([v], r2)
    | _ => none

/-- Parse the comma-separated members of a non-empty JSON object (after the
opening brace). -/
def parseJObjItems : Nat → List Char → Option (List (String × JValue) × List Char)
  | 0, _ => none
  | fuel + 1, l => do
    match l.dropWhile isJsonWs with
    | '"' :: r => do
      let (k, r2) ← parseJStringBody fuel r
      match r2.dropWhile isJsonWs with
      | ':' :: r3 => do
        let (v, r4) ← parseJValue fuel r3
        match r4.dropWhile isJsonWs with
        | ',' :: r5 => do
          let (kvs, r6) ← parseJObjItems fuel r5
          some ((k.asString, v) :: kvs, r6)
        | c :: r5 =>
          if c = rbrace then some ([(k.asString, v)], r5) else none
        | [] => none
      | _ => none
    | _ => none

end

/-- The host `JSON.parse`: strict parse of the whole input, throwing
(modelled as `Except.error`) on any malformed input. -/
def jsonParse (l : List Char) : Except String JValue :=
  match parseJValue (l.length + 1) l with
  | some (v, rest) =>
    if (rest.dropWhile isJsonWs).isEmpty then .ok v else .error "Unexpected token"
  | none => .error "Unexpected token"

/-- JavaScript try/catch over a computation modelled in `Except`. -/
def tryCatchE {α : Type} (x : Except String α) (h : String → Except String α) :
    Except String α :=
  match x with
  | .ok a => .ok a
  | .error e => h e

/-- Leap year in the proleptic Gregorian calendar. -/
def isLeap (y : Int) : Bool := (y % 4 = 0 && y % 100 ≠ 0) || y % 400 = 0

/-- Days in a month (1-based). -/
def daysInMonth (y m : Int) : Int :=
  if m = 2 then (if isLeap y then 29 else 28)
  else if m = 4 ∨ m = 6 ∨ m = 9 ∨ m = 11 then 30 else 31

/-- Day count since 1970-01-01 of a civil date (standard era-based
conversion, exact for all reachable inputs). -/
def daysFromCivil (y m d : Int) : Int :=
  let y2 := if m ≤ 2 then y - 1 else y
  let era := (if 0 ≤ y2 then y2 else y2 - 399) / 400
  let yoe := y2 - era * 400
  let mp := (m + 9) % 12
  let doy := (153 * mp + 2) / 5 + d - 1
  let doe := yoe * 365 + yoe / 4 - yoe / 100 + doy
  era * 146097 + doe - 719468

/-- Read exactly `n` decimal digits. -/
def parseNDigits (n : Nat) (l : List Char) : Option (Nat × List Char) :=
  let ds := l.take n
  if ds.length = n ∧ ds.all Char.isDigit then some (digitsToNat ds, l.drop n) else none

/-- Milliseconds denoted by a fraction-of-second digit run (first three
digits, right-padded with zeros). -/
def msOfFrac (ds : List Char) : Nat := digitsToNat ((ds ++ ['0', '0', '0']).take 3)

/-- Parse a `+HH:mm` / `-HH:mm` timezone offset body into milliseconds. -/
def parseUtcOffset (l : List Char) : Option (Int × List Char) := do
  let (oh, l1) ← parseNDigits 2 l
  match l1 with
  | ':' :: l2 => do
    let (om, l3) ← parseNDigits 2 l2
    if 23 < oh ∨ 59 < om then none else
    some (((oh * 60 + om : Nat) : Int) * 60000, l3)
  | _ => none

/-- Parse the clock part `HH:mm[:ss[.frac]][Z|+-HH:mm]` of a date-time
string, returning (milliseconds into the day, offset milliseconds to
subtract, rest).  A clock with no offset suffix denotes host local time, so
its offset is the host offset `tz`. -/
def parseClock (tz : Int) (l : List Char) : Option (Int × Int × List Char) := do
  let (h, l1) ← parseNDigits 2 l
  match l1 with
  | ':' :: l2 => do
    let (mi, l3) ← parseNDigits 2 l2
    let (ss, ms, l4) ← (match l3 with
      | ':' :: l4 => do
        let (ss, l5) ← parseNDigits 2 l4
        (match l5 with
         | '.' :: l6 =>
           let fds := l6.takeWhile Char.isDigit
           if fds.isEmpty then none
           else some (ss, msOfFrac fds, l6.drop fds.length)
         | _ => some (ss, 0, l5))
      | _ => some (0, 0, l3) : Option (Nat × Nat × List Char))
    if 59 < mi ∨ 59 < ss then none else
    if 24 < h ∨ (h = 24 ∧ (mi ≠ 0 ∨ ss ≠ 0 ∨ ms ≠ 0)) then none else
    let timeMs : Int := ((h * 3600000 + mi * 60000 + ss * 1000 + ms : Nat) : Int)
    match l4 with
    | [] => some (timeMs, tz, [])
    | 'Z' :: l5 => some (timeMs, 0, l5)
    | '+' :: l5 => do
      let (o, l6) ← parseUtcOffset l5
      some (timeMs, o, l6)
    | '-' :: l5 => do
      let (o, l6) ← parseUtcOffset l5
      some (timeMs, -o, l6)
    | _ => none
  | _ => none

/-- The host `new Date(string)`, i.e. the ECMA-262 date-time string format
`YYYY[-MM[-DD]][THH:mm[:ss[.frac]][Z|+-HH:mm]]`: date-only forms are UTC,
date-time forms without an offset are host local time.  Strings outside this
format (including the implementation-defined lenient fallbacks of real
engines) are an invalid date, `none`. -/
def jsDateParse (tz : Int) (s : String) : Option Int := do
  let (y, l1) ← parseNDigits 4 s.data
  let (mo, d, lr) ← (match l1 with
    | '-' :: l2 => do
      let (mo, l3) ← parseNDigits 2 l2
      (match l3 with
       | '-' :: l4 => do
         let (d, l5) ← parseNDigits 2 l4
         some (mo, d, l5)
       | _ => some (mo, 1, l3))
    | _ => some (1, 1, l1) : Option (Nat × Nat × List Char))
  if mo < 1 ∨ 12 < mo then none else
  if d < 1 ∨ daysInMonth (y : Int) (mo : Int) < (d : Int) then none else
  let dayMs : Int := daysFromCivil (y : Int) (mo : Int) (d : Int) * 86400000
  match lr with
  | [] => some dayMs
  | 'T' :: l6 => do
    let (timeMs, offMs, l7) ← parseClock tz l6
    if l7.isEmpty then some (dayMs + timeMs - offMs) else none
  | _ => none

/-- The host `new Date(value)` on a possibly-`undefined` parsed JSON value:
`undefined` and unparseable strings give an invalid date (`none`), `null`
and booleans coerce to 0/1, numbers truncate toward zero and clip at
±8.64e15 ms, and objects/arrays are modelled as invalid. -/
def jsNewDate (tz : Int) (v : Option JValue) : Option Int :=
  match v with
  | none => none
  | some .null => some 0
  | some (.bool b) => some (if b then 1 else 0)
  | some (.num q) =>
    let t : Int := q.num / (q.den : Int)
    if t.natAbs ≤ 8640000000000000 then some t else none
  | some (.str s) => jsDateParse tz s
  | some (.arr _) => none
  | some (.obj _) => none

/-- The trusted meeting-provider URL origin used by the footnote regex
`\[(\d+)\]\((https:\/\/teams\.microsoft\.com[^)]+)\)`. -/
def teamsUrlChars : List Char := ("https://teams.microsoft.com").data

/-- One attempt of the footnote regex at the current position: marker
`[<digits>](https://teams.microsoft.com<nonempty, no closing paren>)`. -/
def matchFootnoteAt : List Char → Option (Nat × String × List Char)
  | '[' :: rest =>
    let ds := rest.takeWhile Char.isDigit
    if ds.isEmpty then none else
    match rest.drop ds.length with
    | ']' :: '(' :: r2 =>
      if teamsUrlChars.isPrefixOf r2 then
        let r3 := r2.drop teamsUrlChars.length
        let body := r3.takeWhile (fun c => c ≠ ')')
        if body.isEmpty then none else
        match r3.drop body.length with
        | ')' :: r4 => some (digitsToNat ds, (teamsUrlChars ++ body).asString, r4)
        | _ => none
      else none
    | _ => none
  | _ => none

/-- Left-to-right non-overlapping scan for footnote markers (`matchAll`),
yielding sparse-array assignments `teamsUrls[n-1] = url` in match order. -/
def footnoteScan : Nat → List Char → List (Int × String)
  | 0, _ => []
  | _, [] => []
  | fuel + 1, l@(_ :: rest) =>
    match matchFootnoteAt l with
    | some (n, url, r4) => ((n : Int) - 1, url) :: footnoteScan fuel r4
    | none => footnoteScan fuel rest

/-- Footnote URL extraction over the whole response text. -/
def extractFootnotes (s : String) : List (Int × String) :=
  footnoteScan (s.data.length + 1) s.data

/-- Sparse-array read `teamsUrls[i]`: the last assignment to index `i`
wins, `undefined` (`none`) for holes. -/
def lookupIdx (urls : List (Int × String)) (i : Int) : Option String :=
  urls.foldl (fun acc p => if p.1 = i then some p.2 else acc) none

/-- Split the input at the first occurrence of `pat`, returning the text
before it and the text after it. -/
def splitAtSub (pat : List Char) : Nat → List Char → Option (List Char × List Char)
  | 0, _ => none
  | fuel + 1, l =>
    if pat.isPrefixOf l then some ([], l.drop pat.length)
    else match l with
      | [] => none
      | c :: rest => (splitAtSub pat fuel rest).map (fun p => (c :: p.1, p.2))

/-- The backtick character. -/
def backtick : Char := Char.ofNat 96

/-- A triple-backtick code-fence delimiter. -/
def fenceChars : List Char := [backtick, backtick, backtick]

/-- The capture of the first code-fence match, before trimming (regex
pattern: fence, optional `json` tag, ASCII whitespace run, then the shortest
span up to the next fence; no match when no closing fence exists). -/
def codeFenceInner (l : List Char) : Option (List Char) := do
  let (_, afterOpen) ← splitAtSub fenceChars (l.length + 1) l
  let a1 := if ("json").data.isPrefixOf afterOpen then afterOpen.drop 4 else afterOpen
  let a2 := a1.dropWhile isJsWs
  let (inner, _) ← splitAtSub fenceChars (a2.length + 1) a2
  some inner

/-- First match of the non-greedy array-span regex `\[[\s\S]*?\]` (variant
A): from the first left bracket to the first right bracket after it. -/
def arraySpanNonGreedy (l : List Char) : Option (List Char) :=
  match l.dropWhile (fun c => c ≠ '[') with
  | '[' :: r =>
    let body := r.takeWhile (fun c => c ≠ ']')
    (match r.drop body.length with
     | ']' :: _ => some ('[' :: body ++ [']'])
     | _ => none)
  | _ => none

/-- First match of the greedy array-span regex `\[[\s\S]*\]` (variant B):
from the first left bracket to the last right bracket of the input. -/
def arraySpanGreedy (l : List Char) : Option (List Char) :=
  match l.dropWhile (fun c => c ≠ '[') with
  | '[' :: r =>
    let rr := r.reverse.dropWhile (fun c => c ≠ ']')
    if rr.isEmpty then none else some ('[' :: rr.reverse)
  | _ => none

/-- Meeting lifecycle status. -/
inductive MStatus where
  | upcoming : MStatus
  | inProgress : MStatus
  | ended : MStatus
deriving DecidableEq

/-- A parsed meeting record (`Meeting` in `src/types.ts`).  `title` and
`joinUrl` hold whatever JSON value the source stored without validation;
`startTime`/`endTime`/`duration` are `none` when the corresponding
JavaScript value is `NaN` (an invalid date). -/
structure Meeting where
  id : String
  title : Option JValue
  startTime : Option Int
  endTime : Option Int
  duration : Option Int
  isOnline : Bool
  joinUrl : Option JValue
  status : MStatus

/-- JavaScript `<` on date values (false whenever a side is invalid,
mirroring `NaN` comparisons). -/
def dlt (a b : Option Int) : Bool :=
  match a, b with
  | some x, some y => decide (x < y)
  | _, _ => false

/-- JavaScript `<=` on date values (false whenever a side is invalid). -/
def dle (a b : Option Int) : Bool :=
  match a, b with
  | some x, some y => decide (x ≤ y)
  | _, _ => false

/-- NaN-propagating `Math.round((e - s) / 60000)`, the duration-in-minutes
computation shared by both parsers. -/
def durationD (et st : Option Int) : Option Int :=
  match et, st with
  | some e, some s => some (jsRoundDiv (e - s) 60000)
  | _, _ => none

/-- Comparator relation of `sort((a, b) => a.startTime - b.startTime)`:
`a` may stay before `b` iff the comparator is non-positive; a `NaN`
comparator value counts as zero per ECMA-262 SortCompare. -/
def sortLe (a b : Meeting) : Bool :=
  match a.startTime, b.startTime with
  | some x, some y => decide (x ≤ y)
  | _, _ => true

/-- Stable insertion of one element (a new element goes after equal ones). -/
def insertS (x : Meeting) : List Meeting → List Meeting
  | [] => [x]
  | y :: ys => if sortLe y x then y :: insertS x ys else x :: y :: ys

/-- One compliant implementation of `Array.prototype.sort` under the
start-time comparator: a stable insertion sort.  ECMA-262 pins the result
(the unique stable sorted permutation) only when the comparator is a
consistent comparison function, which for this comparator means every
element's start time is valid; when some start time is NaN (reachable
through variant B's fallback path) the comparator is inconsistent and the
engine's order is implementation-defined, so the only engine-independent
facts are membership/permutation ones, and ordering statements must be
scoped to all-valid outputs rather than read off this definition's
particular order. -/
def sortByStart (l : List Meeting) : List Meeting :=
  l.foldl (fun acc x => insertS x acc) []

/-- Elements of a parsed JSON array (the `as Array<...>` cast performs no
runtime check; the extracted span always starts with a bracket, so a
successful parse is an array). -/
def jarrayItems : JValue → List JValue
  | .arr xs => xs
  | _ => []

/-- The `jsonContent` scope both parsers search for an array span: the
trimmed interior of the first code fence when one exists, else the whole
response. -/
def jsonScope (response : String) : List Char :=
  match codeFenceInner response.data with
  | some inner => jsTrimL inner
  | none => response.data

namespace MSa

/-- Status classifier of variant A (`meetingService.ts` lines 193-198):
`now < start` upcoming, else `now <= end` in progress, else ended. -/
def getMeetingStatus (start finish : Option Int) (now : Int) : MStatus :=
  if dlt (some now) start then .upcoming
  else if dle (some now) finish then .inProgress
  else .ended

/-- One iteration of variant A's element loop (lines 165-184): skip unless
both timestamps parse; resolve `joinUrl` as `teamsUrls[i] ||
item.onlineJoinUrl || undefined`; no validation of `title` or of the
end/start order. -/
def mkMeetingOfItem (now tz : Int) (urls : List (Int × String)) (i : Nat)
    (item : JValue) : Option Meeting :=
  let startTime := jsNewDate tz (jsGetField item ("startTime"))
  let endTime := jsNewDate tz (jsGetField item ("endTime"))
  match startTime, endTime with
  | some s, some e =>
    let joinUrl := jsOrV ((lookupIdx urls (i : Int)).map JValue.str)
      (jsOrV (jsGetField item ("onlineJoinUrl")) none)
    some {
      id := "meeting-" ++ toString i ++ "-" ++ toString now
      title := jsGetField item ("title")
      startTime := some s
      endTime := some e
      duration := durationD (some e) (some s)
      isOnline := jsTruthyOpt joinUrl
      joinUrl := joinUrl
      status := getMeetingStatus (some s) (some e) now }
  | _, _ => none

/-- Variant A's element loop over the parsed array. -/
def processItems (now tz : Int) (urls : List (Int × String)) :
    Nat → List JValue → List Meeting
  | _, [] => []
  | i, item :: rest =>
    match mkMeetingOfItem now tz urls i item with
    | some m => m :: processItems now tz urls (i + 1) rest
    | none => processItems now tz urls (i + 1) rest

/-- The body of variant A's `try` block: code-fence narrowing, non-greedy
array-span extraction, `JSON.parse` (which may throw) and the element loop.
No array span means the loop simply never runs. -/
def parseMeetingsBody (now tz : Int) (urls : List (Int × String))
    (response : String) : Except String (List Meeting) :=
  match arraySpanNonGreedy (jsonScope response) with
  | none => .ok []
  | some span =>
    match jsonParse span with
    | .error e => .error e
    | .ok v => .ok (processItems now tz urls 0 (jarrayItems v))

/-- Variant A's `parseMeetings` as a possibly-throwing computation: footnote
extraction, the `try`/`catch` (a caught parse error leaves the accumulator
empty), then the final sort. -/
def parseMeetingsE (now tz : Int) (response : String) : Except String (List Meeting) :=
  let urls := extractFootnotes response
  (tryCatchE (parseMeetingsBody now tz urls response) (fun _ => .ok [])).map sortByStart

/-- Variant A's `parseMeetings` (lines 141-191). -/
def parseMeetings (now tz : Int) (response : String) : List Meeting :=
  match parseMeetingsE now tz response with
  | .ok l => l
  | .error _ => []

end MSa

namespace MSb

/-- Status classifier of variant B (lines 699-708): `now < start` upcoming,
else `now >= start && now <= end` in progress, else ended. -/
def getMeetingStatus (start finish : Option Int) (now : Int) : MStatus :=
  if dlt (some now) start then .upcoming
  else if dle start (some now) && dle (some now) finish then .inProgress
  else .ended

/-- One iteration of variant B's element loop (lines 582-610): the id uses
the count of accepted meetings, and the inline fallback chain is
`onlineJoinUrl || joinUrl || teamsUrl`. -/
def mkMeetingOfItem (now tz : Int) (urls : List (Int × String)) (i cnt : Nat)
    (item : JValue) : Option Meeting :=
  let startTime := jsNewDate tz (jsGetField item ("startTime"))
  let endTime := jsNewDate tz (jsGetField item ("endTime"))
  match startTime, endTime with
  | some s, some e =>
    let joinUrl := jsOrV ((lookupIdx urls (i : Int)).map JValue.str)
      (jsOrV (jsGetField item ("onlineJoinUrl"))
        (jsOrV (jsGetField item ("joinUrl"))
          (jsOrV (jsGetField item ("teamsUrl")) none)))
    some {
      id := "meeting-" ++ toString cnt ++ "-" ++ toString now
      title := jsGetField item ("title")
      startTime := some s
      endTime := some e
      duration := durationD (some e) (some s)
      isOnline := jsTruthyOpt joinUrl
      joinUrl := joinUrl
      status := getMeetingStatus (some s) (some e) now }
  | _, _ => none

/-- Variant B's element loop over the parsed array. -/
def processItems (now tz : Int) (urls : List (Int × String)) :
    Nat → Nat → List JValue → List Meeting
  | _, _, [] => []
  | i, cnt, item :: rest =>
    match mkMeetingOfItem now tz urls i cnt item with
    | some m => m :: processItems now tz urls (i + 1) (cnt + 1) rest
    | none => processItems now tz urls (i + 1) cnt rest

end MSb

/-- Generic leftmost-match regex scan: try a deterministic matcher at every
position, left to right. -/
def scanFirst {α : Type} (f : List Char → Option α) : Nat → List Char → Option α
  | 0, _ => none
  | _ + 1, [] => f []
  | fuel + 1, c :: rest =>
    match f (c :: rest) with
    | some a => some a
    | none => scanFirst f fuel rest

/-- Zero-width lookahead `(?=\d+\.\s+\*\*)` used to split blocks. -/
def numBoldAt (l : List Char) : Bool :=
  let ds := l.takeWhile Char.isDigit
  if ds.isEmpty then false else
  match l.drop ds.length with
  | '.' :: r =>
    let ws := r.takeWhile isJsWs
    !ws.isEmpty && ("**").data.isPrefixOf (r.drop ws.length)
  | _ => false

/-- Worker for `String.prototype.split` on the zero-width lookahead: cut
before every position after the first where the lookahead matches. -/
def splitBlocksGo : Nat → Bool → List Char → List Char → List (List Char)
  | _, _, [], acc => [acc.reverse]
  | 0, _, l, acc => [acc.reverse ++ l]
  | fuel + 1, atStart, c :: rest, acc =>
    if !atStart && numBoldAt (c :: rest) then
      acc.reverse :: splitBlocksGo fuel false rest [c]
    else
      splitBlocksGo fuel false rest (c :: acc)

/-- `response.split(/(?=\d+\.\s+\*\*)/)`. -/
def splitBlocks (l : List Char) : List (List Char) :=
  splitBlocksGo (l.length + 1) true l []

/-- Case-insensitive ASCII literal prefix test (the `/i` regex flag). -/
def ciStartsWith (pat : List Char) (l : List Char) : Bool :=
  match pat, l with
  | [], _ => true
  | _ :: _, [] => false
  | p :: ps, c :: cs => p.toLower = c.toLower && ciStartsWith ps cs

/-- One attempt of the title regex `\d+\.\s+\*\*([^*]+)\*\*` at the current
position, returning the raw capture. -/
def titleAt (l : List Char) : Option String :=
  let ds := l.takeWhile Char.isDigit
  if ds.isEmpty then none else
  match l.drop ds.length with
  | '.' :: r =>
    let ws := r.takeWhile isJsWs
    if ws.isEmpty then none else
    let r2 := r.drop ws.length
    if ("**").data.isPrefixOf r2 then
      let r3 := r2.drop 2
      let body := r3.takeWhile (fun c => c ≠ '*')
      if body.isEmpty then none else
      if ("**").data.isPrefixOf (r3.drop body.length) then some body.asString else none
    else none
  | _ => none

/-- Read exactly `n` digits, keeping the matched characters. -/
def grabDigits (n : Nat) (l : List Char) : Option (List Char × List Char) :=
  let ds := l.take n
  if ds.length = n ∧ ds.all Char.isDigit then some (ds, l.drop n) else none

/-- Label part `\*\*<word>(?:\s+Time)?:\*\*\s*` of the start/end time
regexes (case-insensitive, with the greedy-optional `Time` backtracking),
returning the rest of the input after the trailing whitespace run. -/
def labelAt (word : List Char) (l : List Char) : Option (List Char) :=
  if ("**").data.isPrefixOf l ∧ ciStartsWith word (l.drop 2) then
    let r2 := (l.drop 2).drop word.length
    let ws := r2.takeWhile isJsWs
    let withTime : Option (List Char) :=
      if !ws.isEmpty ∧ ciStartsWith ("time").data (r2.drop ws.length) then
        afterColon ((r2.drop ws.length).drop 4)
      else none
    match withTime with
    | some r => some r
    | none => afterColon r2
  else none
where
  afterColon (r : List Char) : Option (List Char) :=
    if (":**").data.isPrefixOf r then some ((r.drop 3).dropWhile isJsWs) else none

/-- Position template for the ISO capture shape: `0` stands for a digit,
`T` for `T`/`t` (the `/i` flag), `+` for a sign, other characters for
themselves. -/
def isoTemplate : List Char := ("0000-00-00T00:00:00+00:00").data

/-- One template position of the ISO capture shape. -/
def matchTemplateChar (t c : Char) : Bool :=
  if t = '0' then c.isDigit
  else if t = 'T' then c = 'T' || c = 't'
  else if t = '+' then c = '+' || c = '-'
  else c = t

/-- The ISO capture shape
`\d{4}-\d{2}-\d{2}T\d{2}:\d{2}:\d{2}[+-]\d{2}:\d{2}` (under `/i` the `T`
also matches lowercase), returning the matched characters. -/
def isoShapeAt (l : List Char) : Option (List Char × List Char) :=
  let cand := l.take 25
  if cand.length = 25 ∧ (cand.zip isoTemplate).all (fun p => matchTemplateChar p.2 p.1)
  then some (cand, l.drop 25)
  else none

/-- The bare clock capture shape `\d{1,2}:\d{2}\s*(?:AM|PM)?`
(case-insensitive, with the `\d{1,2}` backtracking), returning the matched
characters of the capture group. -/
def ampmShapeAt (l : List Char) : Option (List Char × List Char) := do
  let (hds, l1) ← (match l with
    | a :: b :: c :: r =>
      if a.isDigit ∧ b.isDigit ∧ c = ':' then some ([a, b], c :: r)
      else if a.isDigit ∧ b = ':' then some ([a], b :: c :: r)
      else none
    | a :: b :: r =>
      if a.isDigit ∧ b = ':' then some ([a], b :: r)
      else none
    | _ => none : Option (List Char × List Char))
  match l1 with
  | ':' :: l2 => do
    let (mds, l3) ← grabDigits 2 l2
    let ws := l3.takeWhile isJsWs
    let l4 := l3.drop ws.length
    if ciStartsWith ("am").data l4 ∨ ciStartsWith ("pm").data l4 then
      some (hds ++ ':' :: mds ++ ws ++ l4.take 2, l4.drop 2)
    else
      some (hds ++ ':' :: mds ++ ws, l4)
  | _ => none

/-- The hour/minute/period extraction of `parseTime`'s own regex
`(\d{1,2}):(\d{2})\s*(AM|PM)?` (period: `some true` = PM). -/
def hmPeriodAt (l : List Char) : Option (Nat × Nat × Option Bool) := do
  let (hds, l1) ← (match l with
    | a :: b :: c :: r =>
      if a.isDigit ∧ b.isDigit ∧ c = ':' then some ([a, b], c :: r)
      else if a.isDigit ∧ b = ':' then some ([a], b :: c :: r)
      else none
    | a :: b :: r =>
      if a.isDigit ∧ b = ':' then some ([a], b :: r)
      else none
    | _ => none : Option (List Char × List Char))
  match l1 with
  | ':' :: l2 => do
    let (mds, l3) ← grabDigits 2 l2
    let l4 := l3.dropWhile isJsWs
    let period : Option Bool :=
      if ciStartsWith ("pm").data l4 then some true
      else if ciStartsWith ("am").data l4 then some false
      else none
    some (digitsToNat hds, digitsToNat mds, period)
  | _ => none

/-- Local midnight of `now`'s local calendar date
(`new Date(getFullYear(), getMonth(), getDate())`), in UTC milliseconds. -/
def localMidnight (now tz : Int) : Int :=
  (Int.fdiv (now + tz) 86400000) * 86400000 - tz

namespace MSb

/-- `parseTime` (lines 677-697): find the first clock match in the string,
apply the 12-hour adjustments and set the hours/minutes on the base date
(an unmatched string returns the base date unchanged). -/
def parseTime (timeStr : String) (baseDate : Int) : Int :=
  match scanFirst hmPeriodAt (timeStr.data.length + 1) timeStr.data with
  | some (h, m, period) =>
    let hours : Nat :=
      if period = some true ∧ h < 12 then h + 12
      else if period = some false ∧ h = 12 then 0
      else h
    baseDate + (hours : Int) * 3600000 + (m : Int) * 60000
  | none => baseDate

/-- The teams-domain URL body after an opening parenthesis
(`https:\/\/teams\.microsoft\.com[^)]+` then the closing parenthesis). -/
def urlBodyAt (l : List Char) : Option String :=
  if teamsUrlChars.isPrefixOf l then
    let r3 := l.drop teamsUrlChars.length
    let body := r3.takeWhile (fun c => c ≠ ')')
    if body.isEmpty then none else
    match r3.drop body.length with
    | ')' :: _ => some ((teamsUrlChars ++ body).asString)
    | _ => none
  else none

/-- One attempt of the footnote-style URL regex `\]\((https...)\)`. -/
def urlAt1 : List Char → Option String
  | ']' :: '(' :: r => urlBodyAt r
  | _ => none

/-- One attempt of the direct-style URL regex `\((https...)\)`. -/
def urlAt2 : List Char → Option String
  | '(' :: r => urlBodyAt r
  | _ => none

/-- The fallback block's URL: footnote style first, else direct style. -/
def urlSearch (block : List Char) : Option String :=
  match scanFirst urlAt1 (block.length + 1) block with
  | some u => some u
  | none => scanFirst urlAt2 (block.length + 1) block

/-- The per-block searches of the fallback path. -/
def titleSearch (block : List Char) : Option String :=
  scanFirst titleAt (block.length + 1) block

/-- Leftmost match of `\*\*<word>(?:\s+Time)?:\*\*\s*(ISO)`. -/
def isoSearch (word : String) (block : List Char) : Option String :=
  scanFirst
    (fun l => (labelAt word.data l).bind (fun r => (isoShapeAt r).map (fun p => p.1.asString)))
    (block.length + 1) block

/-- Leftmost match of `\*\*<word>(?:\s+Time)?:\*\*\s*(\d{1,2}:\d{2}\s*(?:AM|PM)?)`. -/
def ampmSearch (word : String) (block : List Char) : Option String :=
  scanFirst
    (fun l => (labelAt word.data l).bind (fun r => (ampmShapeAt r).map (fun p => p.1.asString)))
    (block.length + 1) block

/-- The start and end instants a fallback block yields: an ISO start match
goes through `new Date` (the ISO end likewise, defaulting to start plus
thirty minutes); otherwise a bare clock start is anchored to the current
local date via `parseTime`, with the end taken from the ISO or clock end
match, again defaulting to thirty minutes after the start. -/
def blockTimes (now tz : Int) (block : List Char) : Option Int × Option Int :=
  match isoSearch ("start") block with
  | some isoS =>
    (jsDateParse tz isoS,
     match isoSearch ("end") block with
     | some eS => jsDateParse tz eS
     | none => (jsDateParse tz isoS).map (fun v => v + 30 * 60 * 1000))
  | none =>
    match ampmSearch ("start") block with
    | some c =>
      (some (parseTime c (localMidnight now tz)),
       match isoSearch ("end") block with
       | some eS => some (parseTime eS (localMidnight now tz))
       | none =>
         match ampmSearch ("end") block with
         | some eS => some (parseTime eS (localMidnight now tz))
         | none => some (parseTime c (localMidnight now tz) + 30 * 60 * 1000))
    | none => (none, none)

/-- One block of the fallback numbered-list path (lines 625-671): requires
a title and a start match (ISO or bare clock), then builds the meeting from
`blockTimes` and the block's teams URL match. -/
def blockMeeting (now tz : Int) (cnt : Nat) (block : List Char) : Option Meeting :=
  match titleSearch block with
  | none => none
  | some rawTitle =>
    if !((isoSearch ("start") block).isSome || (ampmSearch ("start") block).isSome)
    then none
    else
      some {
        id := "meeting-" ++ toString cnt ++ "-" ++ toString now
        title := some (.str (jsTrim rawTitle))
        startTime := (blockTimes now tz block).1
        endTime := (blockTimes now tz block).2
        duration := durationD (blockTimes now tz block).2 (blockTimes now tz block).1
        isOnline := jsTruthyOpt ((urlSearch block).map JValue.str)
        joinUrl := (urlSearch block).map JValue.str
        status := getMeetingStatus (blockTimes now tz block).1 (blockTimes now tz block).2 now }

/-- The fallback loop over split blocks. -/
def blocksLoop (now tz : Int) : Nat → List (List Char) → List Meeting
  | _, [] => []
  | cnt, b :: rest =>
    match blockMeeting now tz cnt b with
    | some m => m :: blocksLoop now tz (cnt + 1) rest
    | none => blocksLoop now tz cnt rest

/-- The whole fallback numbered-list extraction. -/
def fallbackParse (now tz : Int) (response : String) : List Meeting :=
  blocksLoop now tz 0 (splitBlocks response.data)

/-- The body of variant B's `try` block: `some` when the structured path
returned (a parsed array with at least one accepted meeting, sorted),
`none` when control falls through to the fallback path. -/
def parseBody (now tz : Int) (urls : List (Int × String)) (response : String) :
    Except String (Option (List Meeting)) :=
  match arraySpanGreedy (jsonScope response) with
  | none => .ok none
  | some span =>
    match jsonParse span with
    | .error e => .error e
    | .ok v =>
      if (processItems now tz urls 0 0 (jarrayItems v)).length > 0
      then .ok (some (sortByStart (processItems now tz urls 0 0 (jarrayItems v))))
      else .ok none

/-- Join of the structured path's outcome with the fallback path: `some`
means the structured path returned its sorted list, `none` means control
fell through to the fallback numbered-list path. -/
def fallthrough (now tz : Int) (response : String) : Option (List Meeting) → List Meeting
  | some ms => ms
  | none => sortByStart (fallbackParse now tz response)

/-- Variant B's `parseWorkIQTextResponse` as a possibly-throwing
computation: a caught parse error falls through to the fallback path, whose
result is sorted before returning. -/
def parseWorkIQTextResponseE (now tz : Int) (response : String) :
    Except String (List Meeting) :=
  let urls := extractFootnotes response
  (tryCatchE (parseBody now tz urls response) (fun _ => .ok none)).map
    (fallthrough now tz response)

/-- Variant B's `parseWorkIQTextResponse` (lines 542-675). -/
def parseWorkIQTextResponse (now tz : Int) (response : String) : List Meeting :=
  match parseWorkIQTextResponseE now tz response with
  | .ok l => l
  | .error _ => []

end MSb

/-- Lookup window (`TimeRange` in `src/types.ts`). -/
inductive TimeRange where
  | today : TimeRange
  | tomorrow : TimeRange
  | week : TimeRange
deriving DecidableEq

namespace MSa

/-- The cache-relevant state of variant A's `MeetingService`. -/
structure ServiceState where
  meetings : List Meeting
  tomorrowMeetings : List Meeting
  weekMeetings : List Meeting
  lastRefresh : Option Int
  lastError : Option String

/-- Error classification (`formatErrorMessage`, lines 65-79): substring
heuristics over the raw error text. -/
def formatErrorMessage (error : String) : String :=
  if jsIncludes error ("not available") || jsIncludes error ("not found") then
    "Work IQ MCP server is not running. Start it from the MCP Servers panel."
  else if jsIncludes error ("timeout") || jsIncludes error ("ETIMEDOUT") then
    "Connection timed out. Check your network or VPN connection."
  else if jsIncludes error ("network") || jsIncludes error ("ENOTFOUND") ||
      jsIncludes error ("ECONNREFUSED") then
    "Network error. Check your internet or VPN connection."
  else if jsIncludes error ("unauthorized") || jsIncludes error ("401") ||
      jsIncludes error ("403") then
    "Authentication failed. You may need to sign in again."
  else "Failed to connect to Work IQ. Check your network connection."

/-- Read-time status recomputation (`updateMeetingStatuses`). -/
def updateMeetingStatuses (ms : List Meeting) (now : Int) : List Meeting :=
  ms.map (fun m => { m with status := getMeetingStatus m.startTime m.endTime now })

/-- One `fetchMeetings` call (lines 28-63).  The external query's outcome is
passed in: `ok response` runs the parser and stores by window (stamping
`lastRefresh` and clearing `lastError` only for today); `error e` leaves all
cached collections and `lastRefresh` untouched, records the classified
error for the today window, and returns the stale cache. -/
def fetchMeetings (st : ServiceState) (timeRange : TimeRange)
    (outcome : Except String String) (now tz : Int) : ServiceState × List Meeting :=
  match outcome with
  | .ok response =>
    let parsed := parseMeetings now tz response
    (match timeRange with
     | .tomorrow => ({ st with tomorrowMeetings := parsed }, parsed)
     | .week => ({ st with weekMeetings := parsed }, parsed)
     | .today =>
       ({ st with meetings := parsed, lastRefresh := some now, lastError := none }, parsed))
  | .error e =>
    (if timeRange = TimeRange.today
     then { st with lastError := some (formatErrorMessage e) }
     else st, st.meetings)

/-- `getCachedMeetings` (lines 200-203): recompute statuses, return the
today cache. -/
def getCachedMeetings (st : ServiceState) (now : Int) : List Meeting :=
  updateMeetingStatuses st.meetings now

/-- `getNextMeeting` (lines 213-216): first cached meeting whose recomputed
status is upcoming. -/
def getNextMeeting (st : ServiceState) (now : Int) : Option Meeting :=
  (updateMeetingStatuses st.meetings now).find? (fun m => m.status == MStatus.upcoming)

/-- `getMinutesUntilNextMeeting` (lines 223-226): `null` (outer `none`)
without a next meeting, else `round((start - now) / 60000)` (`NaN`, inner
`none`, if the start were invalid). -/
def getMinutesUntilNextMeeting (st : ServiceState) (now : Int) : Option (Option Int) :=
  (getNextMeeting st now).map (fun next =>
    match next.startTime with
    | some s => some (jsRoundDiv (s - now) 60000)
    | none => none)

/-- The mutations variant A ever applies to its cache: a `fetchMeetings`
call with some outcome, or the read-time status recomputation performed by
the query operations. -/
inductive ServiceStep : ServiceState → ServiceState → Prop where
  | fetch (st : ServiceState) (timeRange : TimeRange) (outcome : Except String String)
      (now tz : Int) : ServiceStep st (fetchMeetings st timeRange outcome now tz).1
  | refreshStatuses (st : ServiceState) (now : Int) :
      ServiceStep st { st with meetings := updateMeetingStatuses st.meetings now }

end MSa

namespace NM

/-- Notification kinds: the two ledger-tracked user notifications plus the
meeting-ended hook (which is gated by the in-progress tracker, not the
ledger). -/
inductive NKind where
  | reminder : NKind
  | starting : NKind
  | endedHook : NKind
deriving DecidableEq

/-- The configuration the scheduler reads. -/
structure NMConfig where
  enableNotifications : Bool
  meetingReminderMinutes : Int

/-- Scheduler state: the sent-notification ledger (a `Map` from key to
`sentAt`, modelled as an insertion-ordered association list) and the single
last-in-progress pointer. -/
structure NMState where
  sent : List (String × Int)
  lastMeetingInProgress : Option Meeting

/-- `Map.has`. -/
def ledgerHas (sent : List (String × Int)) (k : String) : Bool :=
  (sent.find? (fun p => p.1 == k)).isSome

/-- `Map.set`: overwrite in place when the key exists, else append. -/
def ledgerSet (sent : List (String × Int)) (k : String) (t : Int) :
    List (String × Int) :=
  if ledgerHas sent k then sent.map (fun p => if p.1 == k then (k, t) else p)
  else sent ++ [(k, t)]

/-- Ledger key construction (`reminder-${id}` / `starting-${id}`). -/
def kindKey : NKind → String → String
  | .reminder, id => "reminder-" ++ id
  | .starting, id => "starting-" ++ id
  | .endedHook, id => "ended-" ++ id

/-- NaN-propagating `Math.round((start - now) / 60000)`. -/
def minutesUntilD (start : Option Int) (now : Int) : Option Int :=
  match start with
  | some s => some (jsRoundDiv (s - now) 60000)
  | none => none

/-- JavaScript `<=` against a NaN-able left operand. -/
def leN (a : Option Int) (b : Int) : Bool :=
  match a with
  | some x => decide (x ≤ b)
  | none => false

/-- JavaScript `>` against a NaN-able left operand. -/
def gtN (a : Option Int) (b : Int) : Bool :=
  match a with
  | some x => decide (b < x)
  | none => false

/-- JavaScript `>=` against a NaN-able left operand. -/
def geN (a : Option Int) (b : Int) : Bool :=
  match a with
  | some x => decide (b ≤ x)
  | none => false

/-- One ledger-guarded notification attempt: when the timing condition
holds and no ledger entry exists for the key, fire the event and record the
entry (with `sentAt` = now); otherwise do nothing. -/
def fireGuard (st : NMState) (key : String) (now : Int) (evt : NKind × String)
    (cond : Bool) : NMState × List (NKind × String) :=
  if cond then
    (if ledgerHas st.sent key then (st, [])
     else ({ st with sent := ledgerSet st.sent key now }, [evt]))
  else (st, [])

/-- The loop body of `checkForNotifications` for one meeting: handle the
just-ended transition, track the in-progress meeting, and for an upcoming
meeting run the reminder attempt and then the starting attempt. -/
def stepMeeting (cfg : NMConfig) (now : Int) (m : Meeting) (st : NMState) :
    NMState × List (NKind × String) :=
  if (m.status == MStatus.ended) && (match st.lastMeetingInProgress with
      | some lm => lm.id == m.id
      | none => false) then
    ({ st with lastMeetingInProgress := none }, [(NKind.endedHook, m.id)])
  else if m.status = MStatus.inProgress then
    ({ st with lastMeetingInProgress := some m }, [])
  else if m.status ≠ MStatus.upcoming then
    (st, [])
  else
    ((fireGuard
        (fireGuard st (kindKey .reminder m.id) now (NKind.reminder, m.id)
          (leN (minutesUntilD m.startTime now) cfg.meetingReminderMinutes &&
            gtN (minutesUntilD m.startTime now) 0)).1
        (kindKey .starting m.id) now (NKind.starting, m.id)
        (leN (minutesUntilD m.startTime now) 1 &&
          geN (minutesUntilD m.startTime now) 0)).1,
     (fireGuard st (kindKey .reminder m.id) now (NKind.reminder, m.id)
        (leN (minutesUntilD m.startTime now) cfg.meetingReminderMinutes &&
          gtN (minutesUntilD m.startTime now) 0)).2 ++
     (fireGuard
        (fireGuard st (kindKey .reminder m.id) now (NKind.reminder, m.id)
          (leN (minutesUntilD m.startTime now) cfg.meetingReminderMinutes &&
            gtN (minutesUntilD m.startTime now) 0)).1
        (kindKey .starting m.id) now (NKind.starting, m.id)
        (leN (minutesUntilD m.startTime now) 1 &&
          geN (minutesUntilD m.startTime now) 0)).2)

/-- The per-meeting loop of `checkForNotifications` (lines 66-115). -/
def checkLoop (cfg : NMConfig) (now : Int) :
    List Meeting → NMState → NMState × List (NKind × String)
  | [], st => (st, [])
  | m :: rest, st =>
    ((checkLoop cfg now rest (stepMeeting cfg now m st).1).1,
     (stepMeeting cfg now m st).2 ++
       (checkLoop cfg now rest (stepMeeting cfg now m st).1).2)

/-- One scheduler tick (`checkForNotifications`, lines 53-124): bail out
when notifications are disabled, recompute statuses (the
`getCachedMeetings()` read, at the same instant), run the per-meeting loop
and prune ledger entries strictly older than one hour. -/
def checkForNotifications (cfg : NMConfig) (ms : List Meeting) (now : Int)
    (st : NMState) : NMState × List (NKind × String) :=
  if !cfg.enableNotifications then (st, [])
  else
    ({ (checkLoop cfg now (MSa.updateMeetingStatuses ms now) st).1 with
        sent := (checkLoop cfg now (MSa.updateMeetingStatuses ms now) st).1.sent.filter
          (fun p => !(decide (p.2 < now - 3600000))) },
     (checkLoop cfg now (MSa.updateMeetingStatuses ms now) st).2)

end NM

namespace FSM

/-- A focus session (`FocusSession` in `src/types.ts`); `duration` and
`remainingMinutes` are NaN-able numbers. -/
structure FocusSession where
  id : String
  startTime : Int
  duration : Option Int
  remainingMinutes : Option Int
  isActive : Bool
  reason : String
  endTime : Option Int
deriving DecidableEq

/-- Manager state plus the host timer environment: `armed` is the set of
live timer handles registered with the event loop, `nextHandle` a fresh
handle supply. -/
structure FSState where
  currentSession : Option FocusSession
  sessionTimer : Option Nat
  updateInterval : Option Nat
  armed : List Nat
  nextHandle : Nat
deriving DecidableEq

/-- Host `setTimeout`/`setInterval`: arm a fresh timer handle. -/
def setTimer (st : FSState) : FSState × Nat :=
  ({ st with armed := st.armed ++ [st.nextHandle], nextHandle := st.nextHandle + 1 },
    st.nextHandle)

/-- Host `clearTimeout`/`clearInterval`. -/
def clearTimer (st : FSState) (h : Nat) : FSState :=
  { st with armed := st.armed.filter (fun x => x ≠ h) }

/-- `stopSession` (lines 87-119): clear both timers when present, mark the
session ended and drop it. -/
def stopSession (st : FSState) : FSState :=
  match st.currentSession with
  | none => st
  | some _ =>
    let st1 := match st.sessionTimer with
      | some h => { clearTimer st h with sessionTimer := none }
      | none => st
    let st2 := match st1.updateInterval with
      | some h => { clearTimer st1 h with updateInterval := none }
      | none => st1
    { st2 with currentSession := none }

/-- `calculateOptimalDuration` (lines 216-230): floor minutes to the next
meeting minus the reminder threshold, at least five; thirty without a next
meeting.  (`Math.max` propagates NaN, hence the `Option`.) -/
def calculateOptimalDuration (msState : MSa.ServiceState) (now : Int)
    (reminderMinutes : Int) : Option Int :=
  match MSa.getNextMeeting msState now with
  | some nextMeeting =>
    nextMeeting.startTime.map (fun s =>
      max 5 (Int.fdiv (s - now) 60000 - reminderMinutes))
  | none => some 30

/-- JavaScript `durationMinutes || calculateOptimalDuration()` on numbers
(`0` and `undefined` are falsy). -/
def jsOrNum (a : Option Int) (b : Option Int) : Option Int :=
  match a with
  | some d => if d = 0 then b else some d
  | none => b

/-- `startSession` (lines 31-85): stop any active session first, then build
the new session and arm the per-minute interval and the terminal timeout. -/
def startSession (st : FSState) (durationMinutes : Option Int)
    (msState : MSa.ServiceState) (reminderMinutes : Int) (now : Int) : FSState :=
  let st := if (match st.currentSession with
      | some s => s.isActive
      | none => false) then stopSession st else st
  let duration := jsOrNum durationMinutes (calculateOptimalDuration msState now reminderMinutes)
  let session : FocusSession := {
    id := "focus-" ++ toString now
    startTime := now
    duration := duration
    remainingMinutes := duration
    isActive := true
    reason := "Manual focus session"
    endTime := none }
  let st := { st with currentSession := some session }
  let p1 := setTimer st
  let st := { p1.1 with updateInterval := some p1.2 }
  let p2 := setTimer st
  { p2.1 with sessionTimer := some p2.2 }

/-- `startFocusAfterMeeting` (lines 121-170): builds the new session and
arms both timers like `startSession`, but without the initial
stop-any-existing-session step. -/
def startFocusAfterMeeting (st : FSState) (meetingTitle : String)
    (msState : MSa.ServiceState) (reminderMinutes : Int) (now : Int) : FSState :=
  let duration := calculateOptimalDuration msState now reminderMinutes
  let session : FocusSession := {
    id := "focus-" ++ toString now
    startTime := now
    duration := duration
    remainingMinutes := duration
    isActive := true
    reason := "Focus time after \"" ++ meetingTitle ++ "\""
    endTime := none }
  let st := { st with currentSession := some session }
  let p1 := setTimer st
  let st := { p1.1 with updateInterval := some p1.2 }
  let p2 := setTimer st
  { p2.1 with sessionTimer := some p2.2 }

end FSM

/-- Projection of a string-valued JavaScript value. -/
def jvStr : Option JValue → Option String
  | some (.str s) => some s
  | _ => none

/-- C2: for every pair of instants start <= end, both status classifiers map
the instant equal to start and the instant equal to end to inProgress, any
earlier instant to upcoming and any later instant to ended. -/
theorem C2_boundary_classification (s e : Int) (h : s ≤ e) :
    MSa.getMeetingStatus (some s) (some e) s = MStatus.inProgress ∧
    MSa.getMeetingStatus (some s) (some e) e = MStatus.inProgress ∧
    MSb.getMeetingStatus (some s) (some e) s = MStatus.inProgress ∧
    MSb.getMeetingStatus (some s) (some e) e = MStatus.inProgress ∧
    (∀ t : Int, t < s →
      MSa.getMeetingStatus (some s) (some e) t = MStatus.upcoming ∧
      MSb.getMeetingStatus (some s) (some e) t = MStatus.upcoming) ∧
    (∀ t : Int, e < t →
      MSa.getMeetingStatus (some s) (some e) t = MStatus.ended ∧
      MSb.getMeetingStatus (some s) (some e) t = MStatus.ended) := by
  refine ⟨?_, ?_, ?_, ?_, fun t ht => ⟨?_, ?_⟩, fun t ht => ⟨?_, ?_⟩⟩ <;>
    simp only [MSa.getMeetingStatus, MSb.getMeetingStatus, dlt, dle] <;>
    split_ifs <;> simp_all <;> omega

/-- Witness for C2 at start 0, end 1. -/
theorem C2_boundary_classification_witness :
    (0 : Int) ≤ 1 ∧ MSa.getMeetingStatus (some 0) (some 1) 0 = MStatus.inProgress :=
  ⟨by decide, (C2_boundary_classification 0 1 (by decide)).1⟩

/-- C3: a fetch for the today window whose external query raises a
transport error leaves the readable cache (`getCachedMeetings`), the stored
collection and `lastRefresh` unchanged, records the classified error, and
returns the stale cache. -/
theorem C3_stale_preserving_fetch (st : MSa.ServiceState) (e : String)
    (now tz T0 : Int) (h1 : st.lastRefresh = some T0) (h2 : st.meetings ≠ []) :
    MSa.getCachedMeetings (MSa.fetchMeetings st TimeRange.today (.error e) now tz).1 now =
      MSa.getCachedMeetings st now ∧
    (MSa.fetchMeetings st TimeRange.today (.error e) now tz).1.meetings = st.meetings ∧
    (MSa.fetchMeetings st TimeRange.today (.error e) now tz).1.lastRefresh = some T0 ∧
    (MSa.fetchMeetings st TimeRange.today (.error e) now tz).1.lastError =
      some (MSa.formatErrorMessage e) ∧
    (MSa.fetchMeetings st TimeRange.today (.error e) now tz).2 = st.meetings := by
  simp [MSa.fetchMeetings, MSa.getCachedMeetings, h1]

/-- A sample cached meeting used by concrete instantiations. -/
def mtgSample : Meeting :=
  { id := "meeting-0-0"
    title := some (.str "Standup")
    startTime := some 100000
    endTime := some 200000
    duration := some 2
    isOnline := false
    joinUrl := none
    status := MStatus.upcoming }

/-- A sample populated cache state used by concrete instantiations. -/
def stSample : MSa.ServiceState :=
  { meetings := [mtgSample]
    tomorrowMeetings := []
    weekMeetings := []
    lastRefresh := some 50
    lastError := none }

/-- Witness for C3 on a populated one-meeting cache and a timeout error. -/
theorem C3_stale_preserving_fetch_witness :
    (MSa.fetchMeetings stSample TimeRange.today (.error ("timeout")) 60 0).1.meetings =
      stSample.meetings ∧
    (MSa.fetchMeetings stSample TimeRange.today (.error ("timeout")) 60 0).1.lastRefresh =
      some 50 :=
  ⟨((C3_stale_preserving_fetch stSample ("timeout") 60 0 50 rfl
      (by simp [stSample])).2).1,
    (((C3_stale_preserving_fetch stSample ("timeout") 60 0 50 rfl
      (by simp [stSample])).2).2).1⟩

/-- C9: both response parsers, embedded as possibly-throwing computations
with `JSON.parse` as the only throwing primitive, complete without an
uncaught exception on every input string: the try/catch encloses every
throwing operation, so an ordinary meeting list (possibly empty) is always
returned. -/
theorem C9_parser_total (s : String) (now tz : Int) :
    (∃ l, MSa.parseMeetingsE now tz s = .ok l) ∧
    (∃ l, MSb.parseWorkIQTextResponseE now tz s = .ok l) := by
  constructor
  · show ∃ l, (tryCatchE (MSa.parseMeetingsBody now tz (extractFootnotes s) s)
      (fun _ => .ok [])).map sortByStart = .ok l
    cases MSa.parseMeetingsBody now tz (extractFootnotes s) s with
    | ok a => exact ⟨sortByStart a, rfl⟩
    | error e => exact ⟨sortByStart [], rfl⟩
  · show ∃ l, (tryCatchE (MSb.parseBody now tz (extractFootnotes s) s)
      (fun _ => .ok none)).map (MSb.fallthrough now tz s) = .ok l
    cases MSb.parseBody now tz (extractFootnotes s) s with
    | ok o => exact ⟨_, rfl⟩
    | error e => exact ⟨_, rfl⟩

/-- C10: whenever `getNextMeeting` returns a meeting its recomputed status
is upcoming, which forces a valid start time strictly after `now`; hence
whenever `getMinutesUntilNextMeeting` returns a value it is a number (never
`NaN`) and that number is non-negative. -/
theorem C10_minutes_until_next_nonneg (st : MSa.ServiceState) (now : Int) :
    (∀ m, MSa.getNextMeeting st now = some m →
      m.status = MStatus.upcoming ∧ ∃ s, m.startTime = some s ∧ now < s) ∧
    (∀ v, MSa.getMinutesUntilNextMeeting st now = some v →
      ∃ k, v = some k ∧ 0 ≤ k) := by
  have hnext : ∀ m, MSa.getNextMeeting st now = some m →
      m.status = MStatus.upcoming ∧ ∃ s, m.startTime = some s ∧ now < s := by
    intro m hm
    have hfind := List.find?_some hm
    have hmem := List.mem_of_find?_eq_some hm
    have hstat : m.status = MStatus.upcoming := by
      simpa using hfind
    refine ⟨hstat, ?_⟩
    rcases List.mem_map.mp hmem with ⟨m0, _, hm0⟩
    rw [← hm0] at hstat
    simp only [MSa.getMeetingStatus] at hstat
    rw [← hm0]
    by_cases hd : dlt (some now) m0.startTime = true
    · cases hs : m0.startTime with
      | none => rw [hs] at hd; simp [dlt] at hd
      | some s0 =>
        refine ⟨s0, rfl, ?_⟩
        rw [hs] at hd
        simpa [dlt] using hd
    · rw [if_neg hd] at hstat
      split at hstat <;> simp_all
  refine ⟨hnext, ?_⟩
  intro v hv
  unfold MSa.getMinutesUntilNextMeeting at hv
  rcases Option.map_eq_some'.mp hv with ⟨m, hm, hvv⟩
  rcases (hnext m hm).2 with ⟨s, hs, hlt⟩
  rw [hs] at hvv
  refine ⟨jsRoundDiv (s - now) 60000, hvv.symm, ?_⟩
  unfold jsRoundDiv
  apply Int.fdiv_nonneg <;> omega

/-- Witness for C10 on the sample cache at an instant before the meeting. -/
theorem C10_minutes_until_next_nonneg_witness :
    ∃ k, (some (jsRoundDiv (100000 - 50) 60000) : Option Int) = some k ∧
      0 ≤ k := by
  have h := (C10_minutes_until_next_nonneg stSample 50).2
    (some (jsRoundDiv (100000 - 50) 60000))
  apply h
  rfl

/-- C7, evaluated at the failing input: starting a session from the idle
state arms handles 0 (interval) and 1 (timeout); while that session is
active, the end-of-meeting auto-start (`startFocusAfterMeeting`) installs a
new session and arms handles 2 and 3 WITHOUT clearing 0 and 1 — both stay
armed in the host event loop, so the superseded session's terminal callback
is still scheduled.  An explicit `startSession` from the same state does
clear them first, leaving only the new handles armed. -/
theorem C7_autostart_leaves_old_timers_armed :
    let st0 : FSM.FSState :=
      { currentSession := none, sessionTimer := none, updateInterval := none,
        armed := [], nextHandle := 0 }
    let st1 := FSM.startSession st0 (some 25) stSample 5 0
    let viaAuto := FSM.startFocusAfterMeeting st1 "Standup" stSample 5 1000
    let viaStart := FSM.startSession st1 (some 25) stSample 5 1000
    (st1.currentSession.map (fun s => s.isActive) = some true) ∧
    st1.updateInterval = some 0 ∧ st1.sessionTimer = some 1 ∧ st1.armed = [0, 1] ∧
    viaAuto.armed = [0, 1, 2, 3] ∧
    viaAuto.updateInterval = some 2 ∧ viaAuto.sessionTimer = some 3 ∧
    viaStart.armed = [2, 3] := by
  decide

/-- Sortedness by start time as produced by the comparator model: every
pair in order satisfies `sortLe` (for two valid start times this is plain
non-decreasing order; pairs involving an invalid time are unconstrained,
exactly as a NaN comparator value constrains nothing). -/
def sortedByStart (l : List Meeting) : Prop :=
  l.Pairwise (fun a b => sortLe a b = true)

theorem mem_insertS {x y : Meeting} {l : List Meeting} :
    y ∈ insertS x l ↔ y = x ∨ y ∈ l := by
  induction l with
  | nil => simp [insertS]
  | cons z zs ih =>
    simp only [insertS]
    split
    · simp only [List.mem_cons, ih]
      tauto
    · simp only [List.mem_cons]

theorem sortLe_of_not_sortLe {y x : Meeting} (h : sortLe y x = false) :
    sortLe x y = true := by
  unfold sortLe at h ⊢
  cases hy : y.startTime <;> cases hx : x.startTime <;> simp_all <;> omega

theorem sortLe_cross {y x z : Meeting} (h1 : sortLe y x = false)
    (h2 : sortLe y z = true) : sortLe x z = true := by
  unfold sortLe at h1 h2 ⊢
  cases hy : y.startTime <;> cases hx : x.startTime <;> cases hz : z.startTime <;>
    simp_all <;> omega

theorem pairwise_insertS {x : Meeting} {l : List Meeting}
    (h : sortedByStart l) : sortedByStart (insertS x l) := by
  unfold sortedByStart at h ⊢
  induction l with
  | nil => simp [insertS]
  | cons y ys ih =>
    rcases List.pairwise_cons.mp h with ⟨hy, hys⟩
    simp only [insertS]
    split
    · rename_i hle
      refine List.pairwise_cons.mpr ⟨?_, ih hys⟩
      intro b hb
      rcases mem_insertS.mp hb with rfl | hbm
      · exact hle
      · exact hy b hbm
    · rename_i hle
      have hxy : sortLe x y = true := sortLe_of_not_sortLe (by simpa using hle)
      refine List.pairwise_cons.mpr ⟨?_, h⟩
      intro b hb
      rcases List.mem_cons.mp hb with rfl | hbm
      · exact hxy
      · exact sortLe_cross (by simpa using hle) (hy b hbm)

theorem sortedByStart_foldl (l : List Meeting) :
    ∀ acc, sortedByStart acc →
      sortedByStart (l.foldl (fun acc x => insertS x acc) acc) := by
  induction l with
  | nil => intro acc h; simpa using h
  | cons x xs ih =>
    intro acc h
    exact ih (insertS x acc) (pairwise_insertS h)

theorem sortedByStart_sortByStart (l : List Meeting) :
    sortedByStart (sortByStart l) :=
  sortedByStart_foldl l [] (List.Pairwise.nil)

theorem sorted_parseMeetings (now tz : Int) (s : String) :
    sortedByStart (MSa.parseMeetings now tz s) := by
  unfold MSa.parseMeetings
  cases hx : MSa.parseMeetingsBody now tz (extractFootnotes s) s with
  | ok a =>
    have hE : MSa.parseMeetingsE now tz s = .ok (sortByStart a) := by
      unfold MSa.parseMeetingsE
      show (tryCatchE (MSa.parseMeetingsBody now tz (extractFootnotes s) s)
        (fun _ => .ok [])).map sortByStart = _
      rw [hx]
      rfl
    rw [hE]
    exact sortedByStart_sortByStart a
  | error e =>
    have hE : MSa.parseMeetingsE now tz s = .ok (sortByStart []) := by
      unfold MSa.parseMeetingsE
      show (tryCatchE (MSa.parseMeetingsBody now tz (extractFootnotes s) s)
        (fun _ => .ok [])).map sortByStart = _
      rw [hx]
      rfl
    rw [hE]
    exact sortedByStart_sortByStart []

theorem parseBody_some_sorted (now tz : Int) (urls : List (Int × String))
    (s : String) (l : List Meeting)
    (h : MSb.parseBody now tz urls s = .ok (some l)) : sortedByStart l := by
  unfold MSb.parseBody at h
  split at h
  · simp at h
  · split at h
    · simp at h
    · split at h
      · rw [Except.ok.injEq, Option.some.injEq] at h
        rw [← h]
        exact sortedByStart_sortByStart _
      · simp at h

theorem sorted_parseWorkIQTextResponse (now tz : Int) (s : String) :
    sortedByStart (MSb.parseWorkIQTextResponse now tz s) := by
  unfold MSb.parseWorkIQTextResponse
  cases hx : MSb.parseBody now tz (extractFootnotes s) s with
  | ok o =>
    have hE : MSb.parseWorkIQTextResponseE now tz s =
        .ok (MSb.fallthrough now tz s o) := by
      unfold MSb.parseWorkIQTextResponseE
      show (tryCatchE (MSb.parseBody now tz (extractFootnotes s) s)
        (fun _ => .ok none)).map (MSb.fallthrough now tz s) = _
      rw [hx]
      rfl
    rw [hE]
    cases o with
    | some ms =>
      show sortedByStart ms
      exact parseBody_some_sorted now tz _ s ms hx
    | none =>
      show sortedByStart (sortByStart (MSb.fallbackParse now tz s))
      exact sortedByStart_sortByStart _
  | error e =>
    have hE : MSb.parseWorkIQTextResponseE now tz s =
        .ok (sortByStart (MSb.fallbackParse now tz s)) := by
      unfold MSb.parseWorkIQTextResponseE
      show (tryCatchE (MSb.parseBody now tz (extractFootnotes s) s)
        (fun _ => .ok none)).map (MSb.fallthrough now tz s) = _
      rw [hx]
      rfl
    rw [hE]
    exact sortedByStart_sortByStart _

theorem sorted_updateMeetingStatuses {ms : List Meeting} (now : Int)
    (h : sortedByStart ms) : sortedByStart (MSa.updateMeetingStatuses ms now) := by
  unfold MSa.updateMeetingStatuses sortedByStart
  rw [List.pairwise_map]
  exact h.imp (fun hab => hab)

/-- Inserting one element permutes a cons: the insertion sort only
reorders. -/
theorem perm_insertS (x : Meeting) (l : List Meeting) :
    List.Perm (insertS x l) (x :: l) := by
  induction l with
  | nil => exact List.Perm.refl _
  | cons y ys ih =>
    simp only [insertS]
    split
    · exact (List.Perm.cons y ih).trans (List.Perm.swap x y ys)
    · exact List.Perm.refl _

theorem perm_sortByStart_foldl (l : List Meeting) :
    ∀ acc, List.Perm (l.foldl (fun acc x => insertS x acc) acc) (acc ++ l) := by
  induction l with
  | nil => intro acc; simp
  | cons x xs ih =>
    intro acc
    have h1 := ih (insertS x acc)
    have h2 : List.Perm (insertS x acc ++ xs) ((x :: acc) ++ xs) :=
      List.Perm.append_right xs (perm_insertS x acc)
    have h3 : List.Perm ((x :: acc) ++ xs) (acc ++ x :: xs) := by
      simp only [List.cons_append]
      exact List.perm_middle.symm
    exact (h1.trans h2).trans h3

/-- The sort returns a permutation of its input — the one property of
`Array.prototype.sort` that survives an inconsistent comparator. -/
theorem perm_sortByStart (l : List Meeting) : List.Perm (sortByStart l) l := by
  have h := perm_sortByStart_foldl l []
  simpa [sortByStart] using h

namespace MSa

theorem mkMeetingOfItem_fieldsA (now tz : Int) (urls : List (Int × String))
    (i : Nat) (item : JValue) (m : Meeting)
    (h : mkMeetingOfItem now tz urls i item = some m) :
    (∃ s, m.startTime = some s) ∧ (∃ e, m.endTime = some e) ∧
    m.title = jsGetField item ("title") ∧
    m.joinUrl = jsOrV ((lookupIdx urls (i : Int)).map JValue.str)
      (jsOrV (jsGetField item ("onlineJoinUrl")) none) := by
  unfold mkMeetingOfItem at h
  cases hs : jsNewDate tz (jsGetField item ("startTime")) with
  | none => rw [hs] at h; exact absurd h (by simp)
  | some s =>
    cases he : jsNewDate tz (jsGetField item ("endTime")) with
    | none => rw [hs, he] at h; exact absurd h (by simp)
    | some e =>
      rw [hs, he] at h
      simp only [Option.some.injEq] at h
      subst h
      exact ⟨⟨s, rfl⟩, ⟨e, rfl⟩, rfl, rfl⟩

theorem processItems_valid_datesA (now tz : Int) (urls : List (Int × String))
    (items : List JValue) : ∀ i0 j,
    ((processItems now tz urls i0 items).get? j).all
      (fun m => m.startTime.isSome && m.endTime.isSome) = true := by
  induction items with
  | nil => intro i0 j; cases j <;> rfl
  | cons item rest ih =>
    intro i0 j
    simp only [processItems]
    cases hmk : mkMeetingOfItem now tz urls i0 item with
    | some m =>
      cases j with
      | zero =>
        rcases mkMeetingOfItem_fieldsA now tz urls i0 item m hmk with
          ⟨⟨s, hs⟩, ⟨e, he⟩, _, _⟩
        simp [hs, he]
      | succ j => simpa using ih (i0 + 1) j
    | none => exact ih (i0 + 1) j

end MSa

namespace MSb

theorem mkMeetingOfItem_fieldsB (now tz : Int) (urls : List (Int × String))
    (i cnt : Nat) (item : JValue) (m : Meeting)
    (h : mkMeetingOfItem now tz urls i cnt item = some m) :
    (∃ s, m.startTime = some s) ∧ (∃ e, m.endTime = some e) ∧
    m.title = jsGetField item ("title") ∧
    m.joinUrl = jsOrV ((lookupIdx urls (i : Int)).map JValue.str)
      (jsOrV (jsGetField item ("onlineJoinUrl"))
        (jsOrV (jsGetField item ("joinUrl"))
          (jsOrV (jsGetField item ("teamsUrl")) none))) := by
  unfold mkMeetingOfItem at h
  cases hs : jsNewDate tz (jsGetField item ("startTime")) with
  | none => rw [hs] at h; exact absurd h (by simp)
  | some s =>
    cases he : jsNewDate tz (jsGetField item ("endTime")) with
    | none => rw [hs, he] at h; exact absurd h (by simp)
    | some e =>
      rw [hs, he] at h
      simp only [Option.some.injEq] at h
      subst h
      exact ⟨⟨s, rfl⟩, ⟨e, rfl⟩, rfl, rfl⟩

end MSb

/-- The raw input refuting C1: a single JSON array element whose title is
empty (so also empty after trimming) and whose endTime lies strictly before
its startTime, both timestamps parsing to valid instants. -/
def c1raw : String :=
  "[\x7b\"title\":\"\",\"startTime\":\"2026-01-19T13:30:00-06:00\",\"endTime\":\"2026-01-19T13:00:00-06:00\"\x7d]"

/-- Membership form of variant A's element-loop validity: every meeting
the loop emits carries valid start and end instants. -/
theorem mem_processItemsA_valid (now tz : Int) (urls : List (Int × String))
    (i0 : Nat) (items : List JValue) (m : Meeting)
    (h : m ∈ MSa.processItems now tz urls i0 items) :
    m.startTime.isSome = true ∧ m.endTime.isSome = true := by
  obtain ⟨j, hj⟩ := List.get?_of_mem h
  have hv := MSa.processItems_valid_datesA now tz urls items i0 j
  rw [hj] at hv
  have hv2 : (m.startTime.isSome && m.endTime.isSome) = true := hv
  simp only [Bool.and_eq_true] at hv2
  exact hv2

/-- Every meeting `parseMeetings` returns carries valid start and end
instants (its accumulator only ever receives loop-validated elements and
the sort only permutes), so the start-time comparator is consistent on
variant A's whole output. -/
theorem mem_parseMeetingsA_valid (now tz : Int) (s : String) (m : Meeting)
    (h : m ∈ MSa.parseMeetings now tz s) :
    m.startTime.isSome = true ∧ m.endTime.isSome = true := by
  unfold MSa.parseMeetings at h
  cases hx : MSa.parseMeetingsBody now tz (extractFootnotes s) s with
  | ok a =>
    have hE : MSa.parseMeetingsE now tz s = .ok (sortByStart a) := by
      unfold MSa.parseMeetingsE
      show (tryCatchE (MSa.parseMeetingsBody now tz (extractFootnotes s) s)
        (fun _ => .ok [])).map sortByStart = _
      rw [hx]
      rfl
    rw [hE] at h
    have hma : m ∈ a := (perm_sortByStart a).mem_iff.mp h
    unfold MSa.parseMeetingsBody at hx
    split at hx
    · rw [Except.ok.injEq] at hx
      rw [← hx] at hma
      exact absurd hma (List.not_mem_nil m)
    · split at hx
      · exact absurd hx (by simp)
      · rw [Except.ok.injEq] at hx
        rw [← hx] at hma
        exact mem_processItemsA_valid now tz (extractFootnotes s) 0 _ m hma
  | error e =>
    have hE : MSa.parseMeetingsE now tz s = .ok (sortByStart []) := by
      unfold MSa.parseMeetingsE
      show (tryCatchE (MSa.parseMeetingsBody now tz (extractFootnotes s) s)
        (fun _ => .ok [])).map sortByStart = _
      rw [hx]
      rfl
    rw [hE] at h
    exact absurd h (List.not_mem_nil m)

/-- Raw text whose fallback blocks carry one ISO-shaped but
calendar-invalid start (month 99) and one valid start: the shape regex
accepts both, `new Date` rejects the first, so the list handed to the
final sort holds a NaN start time next to a valid one. -/
def c5raw : String :=
  "1. **Bad**\n**Start Time:** 2026-99-10T10:00:00-06:00\n2. **Good**\n**Start Time:** 2026-01-19T09:00:00-06:00\n"

/-- C5 counterexample: on `c5raw` variant B's fallback path returns a list
whose first meeting has an invalid (NaN) start time beside a valid one, so
the comparator `a.startTime.getTime() - b.startTime.getTime()` handed to
`Array.prototype.sort` returns NaN on some pairs and is not a consistent
comparison function; ECMA-262 then leaves the sort order
implementation-defined (valid pairs straddling the NaN element need not
end up ordered), so the claim's unconditional sortedness over every raw
input is not a guarantee of the program. -/
theorem C5_counterexample_fallback_nan_start :
    (MSb.parseWorkIQTextResponse 0 0 c5raw).map Meeting.startTime =
      [none, some 1768834800000] ∧
    (MSb.parseWorkIQTextResponse 0 0 c5raw).map (fun m => jvStr m.title) =
      [some "Bad", some "Good"] := by
  decide

/-- C5 amended: the parsers' sort returns a permutation of its input (the
engine-independent guarantee under any comparator); variant A's output
always carries valid start and end times, so its comparator is consistent
and its returned list is non-decreasing by start time; variant B's
returned list is non-decreasing by start time whenever all its start
times are valid (only the fallback path can produce an invalid one, and
then the engine order is implementation-defined); and every mutation
variant A applies to its cache preserves sortedness. -/
theorem C5_amended_sorted_on_valid_starts :
    (∀ l : List Meeting, List.Perm (sortByStart l) l) ∧
    (∀ now tz : Int, ∀ s : String,
      (∀ m ∈ MSa.parseMeetings now tz s,
        m.startTime.isSome = true ∧ m.endTime.isSome = true) ∧
      sortedByStart (MSa.parseMeetings now tz s)) ∧
    (∀ now tz : Int, ∀ s : String,
      (∀ m ∈ MSb.parseWorkIQTextResponse now tz s, m.startTime.isSome = true) →
      sortedByStart (MSb.parseWorkIQTextResponse now tz s)) ∧
    (∀ st st', MSa.ServiceStep st st' → sortedByStart st.meetings →
      sortedByStart st'.meetings) := by
  refine ⟨perm_sortByStart, ?_, ?_, ?_⟩
  · intro now tz s
    exact ⟨fun m hm => mem_parseMeetingsA_valid now tz s m hm,
      sorted_parseMeetings now tz s⟩
  · intro now tz s _h
    exact sorted_parseWorkIQTextResponse now tz s
  · intro st st' hstep hsorted
    cases hstep with
    | fetch timeRange outcome now tz =>
      cases outcome with
      | ok resp =>
        cases timeRange <;>
          simp_all [MSa.fetchMeetings, sorted_parseMeetings]
      | error e =>
        by_cases h : timeRange = TimeRange.today <;>
          simp_all [MSa.fetchMeetings]
    | refreshStatuses now => exact sorted_updateMeetingStatuses now hsorted

/-- Witness for C5's amended clauses at concrete inputs: the structured
parse of `c1raw` has all-valid start times (discharging the scoped
hypothesis for variant B), and a failing fetch step from the populated
sample state keeps the cache sorted. -/
theorem C5_amended_sorted_on_valid_starts_witness :
    ((∀ m ∈ MSb.parseWorkIQTextResponse 0 0 c1raw, m.startTime.isSome = true) ∧
      sortedByStart (MSb.parseWorkIQTextResponse 0 0 c1raw)) ∧
    (sortedByStart stSample.meetings ∧
      sortedByStart ((MSa.fetchMeetings stSample TimeRange.today
        (.error ("boom")) 7 0).1.meetings)) :=
  ⟨⟨by decide, C5_amended_sorted_on_valid_starts.2.2.1 0 0 c1raw (by decide)⟩,
   ⟨by simp [sortedByStart, stSample],
    C5_amended_sorted_on_valid_starts.2.2.2 stSample _
      (MSa.ServiceStep.fetch stSample TimeRange.today (.error ("boom")) 7 0)
      (by simp [sortedByStart, stSample])⟩⟩

/-- The raw text of C4: the claim's JSON array (with an inline placeholder
join URL) followed by the footnote carrying the real URL, with no code
fence around the JSON. -/
def c4raw : String :=
  "[\x7b\"title\":\"A\",\"startTime\":\"2026-01-19T13:00:00-06:00\",\"endTime\":\"2026-01-19T13:30:00-06:00\",\"onlineJoinUrl\":\"https://teams.microsoft.com/placeholder\"\x7d]\n[1](https://teams.microsoft.com/l/meeting/details?eventId=real)"

/-- The footnote URL of C4. -/
def c4realUrl : String := "https://teams.microsoft.com/l/meeting/details?eventId=real"

/-- C4 counterexample: on the claim's exact raw text (no code fence),
`parseWorkIQTextResponse` parses no meeting at all — its greedy array-span
regex swallows the trailing footnote, `JSON.parse` rejects the span, and
the numbered-list fallback finds nothing — even though the footnote was
extracted; so for that parser there is no "single parsed meeting" whose
joinUrl could equal the footnote URL. -/
theorem C4_counterexample_greedy_span_swallows_footnote :
    (MSb.parseWorkIQTextResponse 0 0 c4raw).isEmpty = true ∧
    extractFootnotes c4raw = [(0, c4realUrl)] := by
  decide

/-- C4 amended: `parseMeetings` (non-greedy span) parses the claim's raw
text into exactly one meeting whose joinUrl is the footnote URL, not the
inline placeholder; and in both structured element loops a (non-empty)
footnote URL at the element's index always takes priority over any inline
join-URL field.  `parseWorkIQTextResponse` needs the JSON inside a code
fence to reproduce the scenario when footnotes follow the array. -/
theorem C4_amended_footnote_priority :
    ((MSa.parseMeetings 0 0 c4raw).map (fun m => jvStr m.joinUrl) = [some c4realUrl] ∧
     (MSa.parseMeetings 0 0 c4raw).length = 1) ∧
    (∀ (now tz : Int) (urls : List (Int × String)) (i : Nat) (item : JValue)
      (m : Meeting) (u : String), lookupIdx urls (i : Int) = some u → u ≠ "" →
      MSa.mkMeetingOfItem now tz urls i item = some m →
      m.joinUrl = some (.str u)) ∧
    (∀ (now tz : Int) (urls : List (Int × String)) (i cnt : Nat) (item : JValue)
      (m : Meeting) (u : String), lookupIdx urls (i : Int) = some u → u ≠ "" →
      MSb.mkMeetingOfItem now tz urls i cnt item = some m →
      m.joinUrl = some (.str u)) := by
  refine ⟨by decide, ?_, ?_⟩
  · intro now tz urls i item m u hu hne h
    rcases MSa.mkMeetingOfItem_fieldsA now tz urls i item m h with ⟨_, _, _, hj⟩
    rw [hj, hu]
    simp [jsOrV, jsTruthyOpt, jsTruthy, hne]
  · intro now tz urls i cnt item m u hu hne h
    rcases MSb.mkMeetingOfItem_fieldsB now tz urls i cnt item m h with ⟨_, _, _, hj⟩
    rw [hj, hu]
    simp [jsOrV, jsTruthyOpt, jsTruthy, hne]

/-- A demonstration JSON element with tiny valid date-only timestamps. -/
def itemDemo : JValue :=
  .obj [("title", .str "A"), ("startTime", .str "1970-01-02"),
    ("endTime", .str "1970-01-03")]

/-- Witness for C4's priority clauses on a one-footnote sparse array. -/
theorem C4_amended_footnote_priority_witness :
    ∃ m, MSa.mkMeetingOfItem 0 0 [((0 : Int), "https://teams.microsoft.com/x")] 0
        itemDemo = some m ∧
      m.joinUrl = some (.str "https://teams.microsoft.com/x") := by
  refine ⟨_, rfl, ?_⟩
  exact C4_amended_footnote_priority.2.1 0 0
    [((0 : Int), "https://teams.microsoft.com/x")] 0 itemDemo _
    "https://teams.microsoft.com/x" rfl (by decide) rfl

/-- The raw input refuting C8: a valid element whose only join-URL source
is an inline field pointing outside the trusted domain. -/
def c8raw : String :=
  "[\x7b\"title\":\"A\",\"startTime\":\"1970-01-02\",\"endTime\":\"1970-01-03\",\"onlineJoinUrl\":\"https://evil.example/hijack\"\x7d]"

/-- C8 counterexample: the parsed meeting's joinUrl is the inline
off-domain URL, which does not lie under the trusted
`https://teams.microsoft.com` origin. -/
theorem C8_counterexample_offsite_inline_url :
    (MSa.parseMeetings 0 0 c8raw).map (fun m => jvStr m.joinUrl) =
      [some "https://evil.example/hijack"] ∧
    teamsUrlChars.isPrefixOf ("https://evil.example/hijack").data = false := by
  decide

theorem isPrefixOf_append (l t : List Char) : l.isPrefixOf (l ++ t) = true := by
  induction l with
  | nil => simp [List.isPrefixOf]
  | cons c cs ih => simp [List.isPrefixOf, ih]

theorem matchFootnoteAt_isPrefix (l : List Char) (n : Nat) (url : String)
    (r : List Char) (h : matchFootnoteAt l = some (n, url, r)) :
    teamsUrlChars.isPrefixOf url.data = true := by
  unfold matchFootnoteAt at h
  split at h
  · lift_lets at h
    extract_lets ds at h
    split at h
    · simp at h
    · split at h
      · rename_i r2
        split at h
        · lift_lets at h
          extract_lets r3 body at h
          split at h
          · simp at h
          · split at h
            · rename_i r4
              simp only [Option.some.injEq, Prod.mk.injEq] at h
              rcases h with ⟨-, hurl, -⟩
              rw [← hurl]
              show teamsUrlChars.isPrefixOf ((teamsUrlChars ++ body).asString).data = true
              exact isPrefixOf_append _ _
            · simp at h
        · simp at h
      · simp at h
  · simp at h

theorem footnoteScan_isPrefix (fuel : Nat) : ∀ (l : List Char) (p : Int × String),
    p ∈ footnoteScan fuel l → teamsUrlChars.isPrefixOf p.2.data = true := by
  induction fuel with
  | zero => intro l p hp; simp [footnoteScan] at hp
  | succ fuel ih =>
    intro l p hp
    cases l with
    | nil => simp [footnoteScan] at hp
    | cons c rest =>
      cases hm : matchFootnoteAt (c :: rest) with
      | none =>
        unfold footnoteScan at hp
        rw [hm] at hp
        exact ih rest p hp
      | some t =>
        obtain ⟨nn, url, r4⟩ := t
        unfold footnoteScan at hp
        rw [hm] at hp
        rcases List.mem_cons.mp hp with hpe | hp2
        · rw [hpe]
          exact matchFootnoteAt_isPrefix (c :: rest) nn url r4 hm
        · exact ih r4 p hp2

theorem jsOrV_cases (a b : Option JValue) : jsOrV a b = a ∨ jsOrV a b = b := by
  unfold jsOrV
  split
  · exact Or.inl rfl
  · exact Or.inr rfl

theorem MSa.joinUrl_provenanceA (now tz : Int) (urls : List (Int × String))
    (i : Nat) (item : JValue) (m : Meeting)
    (h : MSa.mkMeetingOfItem now tz urls i item = some m) :
    m.joinUrl = none ∨
    (∃ u, lookupIdx urls (i : Int) = some u ∧ m.joinUrl = some (.str u)) ∨
    m.joinUrl = jsGetField item ("onlineJoinUrl") := by
  rcases MSa.mkMeetingOfItem_fieldsA now tz urls i item m h with ⟨-, -, -, hj⟩
  rcases jsOrV_cases ((lookupIdx urls (i : Int)).map JValue.str)
      (jsOrV (jsGetField item ("onlineJoinUrl")) none) with h1 | h1
  · rw [h1] at hj
    cases hu : lookupIdx urls (i : Int) with
    | some u =>
      right; left
      exact ⟨u, rfl, by rw [hj, hu]; rfl⟩
    | none =>
      left
      rw [hj, hu]
      rfl
  · rcases jsOrV_cases (jsGetField item ("onlineJoinUrl")) none with h2 | h2
    · right; right
      rw [hj, h1, h2]
    · left
      rw [hj, h1, h2]

theorem MSb.joinUrl_provenanceB (now tz : Int) (urls : List (Int × String))
    (i cnt : Nat) (item : JValue) (m : Meeting)
    (h : MSb.mkMeetingOfItem now tz urls i cnt item = some m) :
    m.joinUrl = none ∨
    (∃ u, lookupIdx urls (i : Int) = some u ∧ m.joinUrl = some (.str u)) ∨
    m.joinUrl = jsGetField item ("onlineJoinUrl") ∨
    m.joinUrl = jsGetField item ("joinUrl") ∨
    m.joinUrl = jsGetField item ("teamsUrl") := by
  rcases MSb.mkMeetingOfItem_fieldsB now tz urls i cnt item m h with ⟨-, -, -, hj⟩
  rcases jsOrV_cases ((lookupIdx urls (i : Int)).map JValue.str) _ with h1 | h1
  · rw [h1] at hj
    cases hu : lookupIdx urls (i : Int) with
    | some u =>
      right; left
      exact ⟨u, rfl, by rw [hj, hu]; rfl⟩
    | none =>
      left
      rw [hj, hu]
      rfl
  · rw [h1] at hj
    rcases jsOrV_cases (jsGetField item ("onlineJoinUrl")) _ with h2 | h2
    · right; right; left
      rw [hj, h2]
    · rw [h2] at hj
      rcases jsOrV_cases (jsGetField item ("joinUrl")) _ with h3 | h3
      · right; right; right; left
        rw [hj, h3]
      · rw [h3] at hj
        rcases jsOrV_cases (jsGetField item ("teamsUrl")) none with h4 | h4
        · right; right; right; right
          rw [hj, h4]
        · left
          rw [hj, h4]

theorem scanFirst_some {α : Type} (f : List Char → Option α) (fuel : Nat) :
    ∀ l a, scanFirst f fuel l = some a → ∃ l2, f l2 = some a := by
  induction fuel with
  | zero => intro l a h; simp [scanFirst] at h
  | succ fuel ih =>
    intro l a h
    cases l with
    | nil => exact ⟨[], h⟩
    | cons c rest =>
      unfold scanFirst at h
      cases hf : f (c :: rest) with
      | some b =>
        rw [hf] at h
        exact ⟨c :: rest, hf.trans h⟩
      | none =>
        rw [hf] at h
        exact ih rest a h

theorem MSb.urlBodyAt_isPrefix (l : List Char) (u : String)
    (h : MSb.urlBodyAt l = some u) : teamsUrlChars.isPrefixOf u.data = true := by
  unfold MSb.urlBodyAt at h
  split at h
  · lift_lets at h
    extract_lets r3 body at h
    split at h
    · simp at h
    · split at h
      · simp only [Option.some.injEq] at h
        rw [← h]
        show teamsUrlChars.isPrefixOf ((teamsUrlChars ++ body).asString).data = true
        exact isPrefixOf_append _ _
      · simp at h
  · simp at h

theorem MSb.urlSearch_isPrefix (block : List Char) (u : String)
    (h : MSb.urlSearch block = some u) : teamsUrlChars.isPrefixOf u.data = true := by
  unfold MSb.urlSearch at h
  cases h1 : scanFirst MSb.urlAt1 (block.length + 1) block with
  | some u1 =>
    rw [h1] at h
    obtain ⟨l2, hl2⟩ := scanFirst_some MSb.urlAt1 (block.length + 1) block u1 h1
    cases h
    unfold MSb.urlAt1 at hl2
    split at hl2
    · exact MSb.urlBodyAt_isPrefix _ _ hl2
    · simp at hl2
  | none =>
    rw [h1] at h
    obtain ⟨l2, hl2⟩ := scanFirst_some MSb.urlAt2 (block.length + 1) block u h
    unfold MSb.urlAt2 at hl2
    split at hl2
    · exact MSb.urlBodyAt_isPrefix _ _ hl2
    · simp at hl2

theorem MSb.blockMeeting_joinUrl (now tz : Int) (cnt : Nat) (block : List Char)
    (m : Meeting) (h : MSb.blockMeeting now tz cnt block = some m) :
    m.joinUrl = none ∨
    ∃ u, m.joinUrl = some (.str u) ∧ teamsUrlChars.isPrefixOf u.data = true := by
  unfold MSb.blockMeeting at h
  split at h
  · simp at h
  · split at h
    · simp at h
    · simp only [Option.some.injEq] at h
      subst h
      cases hu : MSb.urlSearch block with
      | none =>
        left
        rfl
      | some u =>
        right
        exact ⟨u, rfl, MSb.urlSearch_isPrefix block u hu⟩

theorem MSb.blocksLoop_joinUrl (now tz : Int) :
    ∀ (blocks : List (List Char)) (cnt : Nat) (m : Meeting),
    m ∈ MSb.blocksLoop now tz cnt blocks →
    m.joinUrl = none ∨
    ∃ u, m.joinUrl = some (.str u) ∧ teamsUrlChars.isPrefixOf u.data = true := by
  intro blocks
  induction blocks with
  | nil => intro cnt m hm; simp [MSb.blocksLoop] at hm
  | cons b rest ih =>
    intro cnt m hm
    unfold MSb.blocksLoop at hm
    cases hb : MSb.blockMeeting now tz cnt b with
    | some m2 =>
      rw [hb] at hm
      rcases List.mem_cons.mp hm with hme | hm2
      · rw [hme]
        exact MSb.blockMeeting_joinUrl now tz cnt b m2 hb
      · exact ih (cnt + 1) m hm2
    | none =>
      rw [hb] at hm
      exact ih cnt m hm

/-- C8 amended: all footnote-extracted URLs and all fallback-path URLs lie
under the trusted `https://teams.microsoft.com` origin; in the structured
element loops a meeting's joinUrl is either absent, a footnote URL for the
element's index, or one of the element's inline join-URL fields taken
verbatim — so only an inline field (used when no footnote covers the index)
can carry an off-domain URL. -/
theorem C8_amended_joinurl_origin :
    (∀ (s : String) (p : Int × String), p ∈ extractFootnotes s →
      teamsUrlChars.isPrefixOf p.2.data = true) ∧
    (∀ (now tz : Int) (urls : List (Int × String)) (i : Nat) (item : JValue)
      (m : Meeting), MSa.mkMeetingOfItem now tz urls i item = some m →
      m.joinUrl = none ∨
      (∃ u, lookupIdx urls (i : Int) = some u ∧ m.joinUrl = some (.str u)) ∨
      m.joinUrl = jsGetField item ("onlineJoinUrl")) ∧
    (∀ (now tz : Int) (urls : List (Int × String)) (i cnt : Nat) (item : JValue)
      (m : Meeting), MSb.mkMeetingOfItem now tz urls i cnt item = some m →
      m.joinUrl = none ∨
      (∃ u, lookupIdx urls (i : Int) = some u ∧ m.joinUrl = some (.str u)) ∨
      m.joinUrl = jsGetField item ("onlineJoinUrl") ∨
      m.joinUrl = jsGetField item ("joinUrl") ∨
      m.joinUrl = jsGetField item ("teamsUrl")) ∧
    (∀ (now tz : Int) (blocks : List (List Char)) (cnt : Nat) (m : Meeting),
      m ∈ MSb.blocksLoop now tz cnt blocks →
      m.joinUrl = none ∨
      ∃ u, m.joinUrl = some (.str u) ∧ teamsUrlChars.isPrefixOf u.data = true) :=
  ⟨fun s p hp => footnoteScan_isPrefix (s.data.length + 1) s.data p hp,
   MSa.joinUrl_provenanceA,
   MSb.joinUrl_provenanceB,
   fun now tz blocks cnt m hm => MSb.blocksLoop_joinUrl now tz blocks cnt m hm⟩

/-- Witness for C8's amended theorem on a one-footnote input. -/
theorem C8_amended_joinurl_origin_witness :
    teamsUrlChars.isPrefixOf ("https://teams.microsoft.com/abc").data = true :=
  C8_amended_joinurl_origin.1 "[1](https://teams.microsoft.com/abc)"
    ((0 : Int), "https://teams.microsoft.com/abc") (by decide)

namespace NM

/-- Key-uniqueness of the ledger: the association list has no duplicate
keys (the `Map` representation invariant). -/
def nodupKeys (sent : List (String × Int)) : Prop :=
  (sent.map Prod.fst).Nodup

theorem ledgerHas_iff {sent : List (String × Int)} {k : String} :
    ledgerHas sent k = true ↔ k ∈ sent.map Prod.fst := by
  unfold ledgerHas
  rw [Option.isSome_iff_exists]
  constructor
  · rintro ⟨p, hp⟩
    have h1 := List.find?_some hp
    have h2 := List.mem_of_find?_eq_some hp
    exact List.mem_map.mpr ⟨p, h2, beq_iff_eq.mp h1⟩
  · intro hk
    rcases List.mem_map.mp hk with ⟨p, hp, he⟩
    have : sent.find? (fun q => q.1 == k) ≠ none := by
      intro hnone
      have := List.find?_eq_none.mp hnone p hp
      simp [he] at this
    rcases Option.ne_none_iff_exists'.mp this with ⟨p2, hp2⟩
    exact ⟨p2, hp2⟩

theorem ledgerHas_of_mem {sent : List (String × Int)} {k : String} {v : Int}
    (h : (k, v) ∈ sent) : ledgerHas sent k = true :=
  ledgerHas_iff.mpr (List.mem_map.mpr ⟨(k, v), h, rfl⟩)

theorem pair_mem_ledgerSet {sent : List (String × Int)} {k2 : String} {t : Int}
    {k : String} {v : Int} (h : (k, v) ∈ sent)
    (hg : ledgerHas sent k2 = false) : (k, v) ∈ ledgerSet sent k2 t := by
  unfold ledgerSet
  rw [if_neg (ne_true_of_eq_false hg)]
  exact List.mem_append_left _ h

theorem mem_ledgerSet_self {sent : List (String × Int)} {k : String} {t : Int}
    (hg : ledgerHas sent k = false) : (k, t) ∈ ledgerSet sent k t := by
  unfold ledgerSet
  rw [if_neg (ne_true_of_eq_false hg)]
  exact List.mem_append_right _ (List.mem_singleton.mpr rfl)

theorem ledgerSet_keys_of_has {sent : List (String × Int)} {k : String} {t : Int}
    (hg : ledgerHas sent k = true) :
    (ledgerSet sent k t).map Prod.fst = sent.map Prod.fst := by
  unfold ledgerSet
  rw [if_pos hg]
  rw [List.map_map]
  apply List.map_congr_left
  intro p _
  by_cases hp : p.1 = k
  · simp [hp]
  · simp [hp]

theorem ledgerSet_keys_of_not_has {sent : List (String × Int)} {k : String} {t : Int}
    (hg : ledgerHas sent k = false) :
    (ledgerSet sent k t).map Prod.fst = sent.map Prod.fst ++ [k] := by
  unfold ledgerSet
  rw [if_neg (ne_true_of_eq_false hg)]
  simp

theorem ledgerHas_ledgerSet_mono {sent : List (String × Int)} {k2 : String}
    {t : Int} {k : String} (h : ledgerHas sent k = true) :
    ledgerHas (ledgerSet sent k2 t) k = true := by
  cases hg : ledgerHas sent k2 with
  | true =>
    rw [ledgerHas_iff, ledgerSet_keys_of_has hg]
    exact ledgerHas_iff.mp h
  | false =>
    rw [ledgerHas_iff, ledgerSet_keys_of_not_has hg]
    exact List.mem_append_left _ (ledgerHas_iff.mp h)

theorem nodupKeys_ledgerSet {sent : List (String × Int)} {k : String} {t : Int}
    (h : nodupKeys sent) : nodupKeys (ledgerSet sent k t) := by
  cases hg : ledgerHas sent k with
  | true =>
    unfold nodupKeys
    rw [ledgerSet_keys_of_has hg]
    exact h
  | false =>
    unfold nodupKeys
    rw [ledgerSet_keys_of_not_has hg]
    refine List.Nodup.append h (List.nodup_singleton k) ?_
    intro a ha hb
    rw [List.mem_singleton] at hb
    subst hb
    exact absurd (ledgerHas_iff.mpr ha) (by simp [hg])

theorem fireGuard_pair_mono {st : NMState} {key : String} {now : Int}
    {evt : NKind × String} {cond : Bool} {k : String} {v : Int}
    (h : (k, v) ∈ st.sent) : (k, v) ∈ (fireGuard st key now evt cond).1.sent := by
  unfold fireGuard
  split
  · split
    · exact h
    · exact pair_mem_ledgerSet h (by rename_i hg; simpa using hg)
  · exact h

theorem fireGuard_has_mono {st : NMState} {key : String} {now : Int}
    {evt : NKind × String} {cond : Bool} {k : String}
    (h : ledgerHas st.sent k = true) :
    ledgerHas (fireGuard st key now evt cond).1.sent k = true := by
  unfold fireGuard
  split
  · split
    · exact h
    · exact ledgerHas_ledgerSet_mono h
  · exact h

theorem fireGuard_fired {st : NMState} {key : String} {now : Int}
    {evt : NKind × String} {cond : Bool} {x : NKind × String}
    (h : x ∈ (fireGuard st key now evt cond).2) :
    x = evt ∧ ledgerHas st.sent key = false ∧
      (key, now) ∈ (fireGuard st key now evt cond).1.sent := by
  unfold fireGuard at h ⊢
  split at h
  · split at h
    · simp at h
    · rename_i hc hg
      rw [List.mem_singleton] at h
      refine ⟨h, by simpa using hg, ?_⟩
      rw [if_pos hc, if_neg hg]
      exact mem_ledgerSet_self (by simpa using hg)
  · simp at h

theorem fireGuard_nofire_of_has {st : NMState} {key : String} {now : Int}
    {evt : NKind × String} {cond : Bool}
    (h : ledgerHas st.sent key = true) : (fireGuard st key now evt cond).2 = [] := by
  unfold fireGuard
  split <;> simp [h]

theorem fireGuard_fired_len {st : NMState} {key : String} {now : Int}
    {evt : NKind × String} {cond : Bool} :
    (fireGuard st key now evt cond).2.length ≤ 1 := by
  unfold fireGuard
  split
  · split <;> simp
  · simp

theorem nodupKeys_fireGuard {st : NMState} {key : String} {now : Int}
    {evt : NKind × String} {cond : Bool} (h : nodupKeys st.sent) :
    nodupKeys (fireGuard st key now evt cond).1.sent := by
  unfold fireGuard
  split
  · split
    · exact h
    · exact nodupKeys_ledgerSet h
  · exact h

end NM

namespace NM

theorem stepMeeting_pair_mono {cfg : NMConfig} {now : Int} {m : Meeting}
    {st : NMState} {k : String} {v : Int} (h : (k, v) ∈ st.sent) :
    (k, v) ∈ (stepMeeting cfg now m st).1.sent := by
  unfold stepMeeting
  split
  · exact h
  · split
    · exact h
    · split
      · exact h
      · exact fireGuard_pair_mono (fireGuard_pair_mono h)

theorem stepMeeting_has_mono {cfg : NMConfig} {now : Int} {m : Meeting}
    {st : NMState} {k : String} (h : ledgerHas st.sent k = true) :
    ledgerHas (stepMeeting cfg now m st).1.sent k = true := by
  unfold stepMeeting
  split
  · exact h
  · split
    · exact h
    · split
      · exact h
      · exact fireGuard_has_mono (fireGuard_has_mono h)

theorem stepMeeting_nodup {cfg : NMConfig} {now : Int} {m : Meeting}
    {st : NMState} (h : nodupKeys st.sent) :
    nodupKeys (stepMeeting cfg now m st).1.sent := by
  unfold stepMeeting
  split
  · exact h
  · split
    · exact h
    · split
      · exact h
      · exact nodupKeys_fireGuard (nodupKeys_fireGuard h)

theorem stepMeeting_fired {cfg : NMConfig} {now : Int} {m : Meeting}
    {st : NMState} {kind : NKind} {id : String}
    (h : (kind, id) ∈ (stepMeeting cfg now m st).2) (hk : kind ≠ NKind.endedHook) :
    ledgerHas st.sent (kindKey kind id) = false ∧
      (kindKey kind id, now) ∈ (stepMeeting cfg now m st).1.sent := by
  revert h
  rcases hs : stepMeeting cfg now m st with ⟨st2, fired⟩
  unfold stepMeeting at hs
  split at hs
  · cases hs
    intro h
    rw [List.mem_singleton, Prod.mk.injEq] at h
    exact absurd h.1 hk
  · split at hs
    · cases hs
      intro h
      simp at h
    · split at hs
      · cases hs
        intro h
        simp at h
      · cases hs
        intro h
        rcases List.mem_append.mp h with h1 | h2
        · obtain ⟨he, hg, hp⟩ := fireGuard_fired h1
          rw [Prod.mk.injEq] at he
          obtain ⟨hek, hei⟩ := he
          subst hek
          subst hei
          exact ⟨hg, fireGuard_pair_mono hp⟩
        · obtain ⟨he, hg, hp⟩ := fireGuard_fired h2
          rw [Prod.mk.injEq] at he
          obtain ⟨hek, hei⟩ := he
          subst hek
          subst hei
          refine ⟨?_, hp⟩
          cases hb : ledgerHas st.sent (kindKey .starting m.id) with
          | false => rfl
          | true =>
            have hmono := @fireGuard_has_mono st (kindKey NKind.reminder m.id) now
              (NKind.reminder, m.id)
              (leN (minutesUntilD m.startTime now) cfg.meetingReminderMinutes &&
                gtN (minutesUntilD m.startTime now) 0)
              (kindKey NKind.starting m.id) hb
            rw [hg] at hmono
            simp at hmono

theorem stepMeeting_count {cfg : NMConfig} {now : Int} {m : Meeting}
    {st : NMState} (x : NKind × String) (hk : x.1 ≠ NKind.endedHook) :
    ((stepMeeting cfg now m st).2).count x ≤ 1 := by
  rcases hs : stepMeeting cfg now m st with ⟨st2, fired⟩
  unfold stepMeeting at hs
  split at hs
  · cases hs
    have : x ∉ [((NKind.endedHook : NKind), m.id)] := by
      intro hx
      rw [List.mem_singleton] at hx
      exact hk (by rw [hx])
    simp [List.count_eq_zero.mpr this]
  · split at hs
    · cases hs
      simp
    · split at hs
      · cases hs
        simp
      · cases hs
        rw [List.count_append]
        by_cases hx1 : x ∈ (fireGuard st (kindKey .reminder m.id) now
            (NKind.reminder, m.id)
            (leN (minutesUntilD m.startTime now) cfg.meetingReminderMinutes &&
              gtN (minutesUntilD m.startTime now) 0)).2
        · have hx1e := (fireGuard_fired hx1).1
          have hz : x ∉ (fireGuard
              (fireGuard st (kindKey .reminder m.id) now (NKind.reminder, m.id)
                (leN (minutesUntilD m.startTime now) cfg.meetingReminderMinutes &&
                  gtN (minutesUntilD m.startTime now) 0)).1
              (kindKey .starting m.id) now (NKind.starting, m.id)
              (leN (minutesUntilD m.startTime now) 1 &&
                geN (minutesUntilD m.startTime now) 0)).2 := by
            intro hx2
            have hx2e := (fireGuard_fired hx2).1
            rw [hx1e] at hx2e
            simp at hx2e
          rw [List.count_eq_zero.mpr hz]
          have := List.count_le_length x (fireGuard st (kindKey .reminder m.id) now
            (NKind.reminder, m.id)
            (leN (minutesUntilD m.startTime now) cfg.meetingReminderMinutes &&
              gtN (minutesUntilD m.startTime now) 0)).2
          have hlen := @fireGuard_fired_len st (kindKey NKind.reminder m.id) now
            (NKind.reminder, m.id)
            (leN (minutesUntilD m.startTime now) cfg.meetingReminderMinutes &&
              gtN (minutesUntilD m.startTime now) 0)
          omega
        · rw [List.count_eq_zero.mpr hx1]
          have := List.count_le_length x (fireGuard
            (fireGuard st (kindKey .reminder m.id) now (NKind.reminder, m.id)
              (leN (minutesUntilD m.startTime now) cfg.meetingReminderMinutes &&
                gtN (minutesUntilD m.startTime now) 0)).1
            (kindKey .starting m.id) now (NKind.starting, m.id)
            (leN (minutesUntilD m.startTime now) 1 &&
              geN (minutesUntilD m.startTime now) 0)).2
          have hlen := @fireGuard_fired_len
            (fireGuard st (kindKey NKind.reminder m.id) now (NKind.reminder, m.id)
              (leN (minutesUntilD m.startTime now) cfg.meetingReminderMinutes &&
                gtN (minutesUntilD m.startTime now) 0)).1
            (kindKey NKind.starting m.id) now (NKind.starting, m.id)
            (leN (minutesUntilD m.startTime now) 1 &&
              geN (minutesUntilD m.startTime now) 0)
          omega

theorem checkLoop_pair_mono {cfg : NMConfig} {now : Int} {ms : List Meeting}
    {st : NMState} {k : String} {v : Int} (h : (k, v) ∈ st.sent) :
    (k, v) ∈ (checkLoop cfg now ms st).1.sent := by
  induction ms generalizing st with
  | nil => exact h
  | cons m rest ih => exact ih (stepMeeting_pair_mono h)

theorem checkLoop_has_mono {cfg : NMConfig} {now : Int} {ms : List Meeting}
    {st : NMState} {k : String} (h : ledgerHas st.sent k = true) :
    ledgerHas (checkLoop cfg now ms st).1.sent k = true := by
  induction ms generalizing st with
  | nil => exact h
  | cons m rest ih => exact ih (stepMeeting_has_mono h)

theorem checkLoop_nodup {cfg : NMConfig} {now : Int} {ms : List Meeting}
    {st : NMState} (h : nodupKeys st.sent) :
    nodupKeys (checkLoop cfg now ms st).1.sent := by
  induction ms generalizing st with
  | nil => exact h
  | cons m rest ih => exact ih (stepMeeting_nodup h)

theorem checkLoop_fired {cfg : NMConfig} {now : Int} {ms : List Meeting}
    {st : NMState} {kind : NKind} {id : String}
    (h : (kind, id) ∈ (checkLoop cfg now ms st).2) (hk : kind ≠ NKind.endedHook) :
    ledgerHas st.sent (kindKey kind id) = false ∧
      (kindKey kind id, now) ∈ (checkLoop cfg now ms st).1.sent := by
  induction ms generalizing st with
  | nil => simp [checkLoop] at h
  | cons m rest ih =>
    simp only [checkLoop] at h ⊢
    rcases List.mem_append.mp h with h1 | h1
    · obtain ⟨hg, hp⟩ := stepMeeting_fired h1 hk
      exact ⟨hg, checkLoop_pair_mono hp⟩
    · obtain ⟨hg, hp⟩ := ih h1
      refine ⟨?_, hp⟩
      cases hb : ledgerHas st.sent (kindKey kind id) with
      | false => rfl
      | true =>
        have hmono := @stepMeeting_has_mono cfg now m st (kindKey kind id) hb
        rw [hg] at hmono
        simp at hmono

theorem checkLoop_nofire_of_has {cfg : NMConfig} {now : Int} {ms : List Meeting}
    {st : NMState} {kind : NKind} {id : String}
    (h : ledgerHas st.sent (kindKey kind id) = true) (hk : kind ≠ NKind.endedHook) :
    ((checkLoop cfg now ms st).2).count (kind, id) = 0 := by
  induction ms generalizing st with
  | nil => simp [checkLoop]
  | cons m rest ih =>
    simp only [checkLoop]
    rw [List.count_append]
    have h1 : (kind, id) ∉ (stepMeeting cfg now m st).2 := by
      intro hx
      have hz := (stepMeeting_fired hx hk).1
      rw [h] at hz
      simp at hz
    rw [List.count_eq_zero.mpr h1, ih (stepMeeting_has_mono h)]

theorem checkLoop_count {cfg : NMConfig} {now : Int} {ms : List Meeting}
    {st : NMState} {kind : NKind} {id : String} (hk : kind ≠ NKind.endedHook) :
    ((checkLoop cfg now ms st).2).count (kind, id) ≤ 1 := by
  induction ms generalizing st with
  | nil => simp [checkLoop]
  | cons m rest ih =>
    simp only [checkLoop]
    rw [List.count_append]
    by_cases h1 : (kind, id) ∈ (stepMeeting cfg now m st).2
    · obtain ⟨hg, hp⟩ := stepMeeting_fired h1 hk
      have hc1 : ((stepMeeting cfg now m st).2).count (kind, id) ≤ 1 :=
        stepMeeting_count (kind, id) hk
      have hc2 : ((checkLoop cfg now rest (stepMeeting cfg now m st).1).2).count
          (kind, id) = 0 :=
        checkLoop_nofire_of_has (ledgerHas_of_mem hp) hk
      omega
    · rw [List.count_eq_zero.mpr h1]
      have hc2 := @ih (stepMeeting cfg now m st).1
      omega

theorem nodupKeys_filter {sent : List (String × Int)} (p : String × Int → Bool)
    (h : nodupKeys sent) : nodupKeys (sent.filter p) := by
  unfold nodupKeys at h ⊢
  exact List.Nodup.sublist (List.Sublist.map Prod.fst (List.filter_sublist sent)) h

theorem checkForNotifications_of_enabled {cfg : NMConfig} {ms : List Meeting}
    {now : Int} {st : NMState} (h : cfg.enableNotifications = true) :
    checkForNotifications cfg ms now st =
      ({ (checkLoop cfg now (MSa.updateMeetingStatuses ms now) st).1 with
          sent := (checkLoop cfg now
            (MSa.updateMeetingStatuses ms now) st).1.sent.filter
            (fun p => !(decide (p.2 < now - 3600000))) },
       (checkLoop cfg now (MSa.updateMeetingStatuses ms now) st).2) := by
  unfold checkForNotifications
  rw [h]
  rfl

end NM

/-- C6: over two scheduler ticks of `checkForNotifications` (with
notifications enabled, arbitrary cached-meeting lists and tick instants,
and a duplicate-free incoming ledger), each notification kind other than
the ended-hook fires at most once per meeting id across the two ticks;
the resulting ledger still has at most one entry per key, and every
surviving entry is within the one-hour retention window of the second
tick. -/
theorem C6_notification_dedup (cfg : NM.NMConfig) (ms1 ms2 : List Meeting)
    (now1 now2 : Int) (st0 : NM.NMState) (kind : NM.NKind) (id : String)
    (henable : cfg.enableNotifications = true) (hk : kind ≠ NM.NKind.endedHook)
    (hnd : NM.nodupKeys st0.sent) :
    ((NM.checkForNotifications cfg ms1 now1 st0).2 ++
        (NM.checkForNotifications cfg ms2 now2
          (NM.checkForNotifications cfg ms1 now1 st0).1).2).count (kind, id) ≤ 1 ∧
      NM.nodupKeys (NM.checkForNotifications cfg ms2 now2
        (NM.checkForNotifications cfg ms1 now1 st0).1).1.sent ∧
      ∀ p ∈ (NM.checkForNotifications cfg ms2 now2
          (NM.checkForNotifications cfg ms1 now1 st0).1).1.sent,
        now2 - 3600000 ≤ p.2 := by
  simp only [NM.checkForNotifications_of_enabled henable]
  refine ⟨?_, ?_, ?_⟩
  · rw [List.count_append]
    by_cases hmem : (kind, id) ∈
        (NM.checkLoop cfg now1 (MSa.updateMeetingStatuses ms1 now1) st0).2
    · have hc1 : ((NM.checkLoop cfg now1
          (MSa.updateMeetingStatuses ms1 now1) st0).2).count (kind, id) ≤ 1 :=
        NM.checkLoop_count hk
      obtain ⟨-, hp⟩ := NM.checkLoop_fired hmem hk
      have hin : (NM.kindKey kind id, now1) ∈
          ((NM.checkLoop cfg now1
            (MSa.updateMeetingStatuses ms1 now1) st0).1.sent.filter
            (fun p => !(decide (p.2 < now1 - 3600000)))) :=
        List.mem_filter.mpr ⟨hp, by
          simp only [Bool.not_eq_eq_eq_not, Bool.not_true, decide_eq_false_iff_not]
          omega⟩
      have hc2 : ((NM.checkLoop cfg now2 (MSa.updateMeetingStatuses ms2 now2)
          { sent := (NM.checkLoop cfg now1
              (MSa.updateMeetingStatuses ms1 now1) st0).1.sent.filter
              (fun p => !(decide (p.2 < now1 - 3600000))),
            lastMeetingInProgress := (NM.checkLoop cfg now1
              (MSa.updateMeetingStatuses ms1 now1) st0).1.lastMeetingInProgress }).2).count (kind, id) = 0 :=
        NM.checkLoop_nofire_of_has (NM.ledgerHas_of_mem hin) hk
      omega
    · rw [List.count_eq_zero.mpr hmem]
      have hc2 : ((NM.checkLoop cfg now2 (MSa.updateMeetingStatuses ms2 now2)
          { sent := (NM.checkLoop cfg now1
              (MSa.updateMeetingStatuses ms1 now1) st0).1.sent.filter
              (fun p => !(decide (p.2 < now1 - 3600000))),
            lastMeetingInProgress := (NM.checkLoop cfg now1
              (MSa.updateMeetingStatuses ms1 now1) st0).1.lastMeetingInProgress }).2).count (kind, id) ≤ 1 :=
        NM.checkLoop_count hk
      omega
  · exact NM.nodupKeys_filter _
      (NM.checkLoop_nodup (NM.nodupKeys_filter _ (NM.checkLoop_nodup hnd)))
  · intro p hp
    have h2 := (List.mem_filter.mp hp).2
    simp only [Bool.not_eq_eq_eq_not, Bool.not_true, decide_eq_false_iff_not] at h2
    omega

theorem C6_notification_dedup_witness :
    ((⟨true, 15⟩ : NM.NMConfig).enableNotifications = true ∧
      NM.NKind.reminder ≠ NM.NKind.endedHook ∧
      NM.nodupKeys (⟨[], none⟩ : NM.NMState).sent) ∧
    (((NM.checkForNotifications ⟨true, 15⟩ [] 0 ⟨[], none⟩).2 ++
        (NM.checkForNotifications ⟨true, 15⟩ [] 1000
          (NM.checkForNotifications ⟨true, 15⟩ [] 0 ⟨[], none⟩).1).2).count
        (NM.NKind.reminder, "m1") ≤ 1 ∧
      NM.nodupKeys (NM.checkForNotifications ⟨true, 15⟩ [] 1000
        (NM.checkForNotifications ⟨true, 15⟩ [] 0 ⟨[], none⟩).1).1.sent ∧
      ∀ p ∈ (NM.checkForNotifications ⟨true, 15⟩ [] 1000
          (NM.checkForNotifications ⟨true, 15⟩ [] 0 ⟨[], none⟩).1).1.sent,
        (1000 : Int) - 3600000 ≤ p.2) :=
  ⟨⟨rfl, by decide, by simp [NM.nodupKeys]⟩,
   C6_notification_dedup ⟨true, 15⟩ [] [] 0 1000 ⟨[], none⟩ NM.NKind.reminder "m1"
     rfl (by decide) (by simp [NM.nodupKeys])⟩
